import Mathlib

/-!
Verification of the graph-insertion and join-eager-load core of the
objection.js repository, shallowly embedded in Lean 4.

The embedding follows `src/lib/queryBuilder/graphInserter/GraphInserter.js`:
the `GraphInserter` class (batch selection, batch marking, many-to-many
join-row synthesis and deduplication, uid stripping, finalization), the
`Model` helpers it uses (`$propKey`, `$omit`, `$values`), and the
`RelationJoinBuilder` / `PathInfo` machinery (select building with the
63-character identifier limit, path-alias encode/decode, id getters and
row-to-tree reconstruction).

JavaScript objects are embedded as association lists with insertion-order
keys (matching `Object.keys` enumeration order), JavaScript primitive
values as the inductive `JsVal`, and in-place object mutation as explicit
state passing; object references inside the row-to-tree pass are embedded
as addresses into an explicit heap, so aliasing behaves as in the source.
-/

namespace Objection

/-- JavaScript primitive values as they appear in the data handled by the
core: `null`, booleans, (integer) numbers, `NaN`, strings, and an opaque
function value (only its being a function is ever observed, by the
`_.isFunction` test in `GraphInserter._finalize`). -/
inductive JsVal where
  | null
  | bool (b : Bool)
  | num (n : Int)
  | nan
  | str (s : String)
  | fn
deriving Repr, DecidableEq

/-- JavaScript truthiness of a value: `null`, `false`, `0`, `NaN` and the
empty string are falsy, everything else is truthy. -/
def truthy : JsVal → Bool
  | .null => false
  | .bool b => b
  | .num n => n != 0
  | .nan => false
  | .str s => s != ""
  | .fn => true

/-- Truthiness of an optional value; a missing property (`undefined`) is
falsy. -/
def truthyO : Option JsVal → Bool
  | none => false
  | some v => truthy v

/-- JavaScript string coercion (`${v}` / `v + ''`) of a primitive value. -/
def jsToString : JsVal → String
  | .null => "null"
  | .bool b => if b then "true" else "false"
  | .num n => toString n
  | .nan => "NaN"
  | .str s => s
  | .fn => "function"

/-- String coercion of an optional value; a missing property coerces to
the string `undefined`. -/
def jsToStringO : Option JsVal → String
  | none => "undefined"
  | some v => jsToString v

/-- A JavaScript object embedded as an association list from property name
to value, in property-insertion order. -/
abbrev JObj := List (String × JsVal)

/-- Property read `o[k]`: the value at the first matching key. -/
def getProp {α : Type} : List (String × α) → String → Option α
  | [], _ => none
  | (k', v) :: t, k => if k' = k then some v else getProp t k

/-- Property write `o[k] = v`: overwrite in place when the key exists,
append a new property otherwise (JavaScript property-table semantics). -/
def setProp {α : Type} : List (String × α) → String → α → List (String × α)
  | [], k, v => [(k, v)]
  | (k', v') :: t, k, v => if k' = k then (k, v) :: t else (k', v') :: setProp t k v

/-- Property delete `delete o[k]`. -/
def delProp {α : Type} (l : List (String × α)) (k : String) : List (String × α) :=
  l.filter (fun p => p.1 ≠ k)

/-- Keys of an object, in insertion order (`Object.keys`). -/
def objKeys {α : Type} (l : List (String × α)) : List String :=
  l.map Prod.fst

theorem getProp_setProp_eq {α : Type} (l : List (String × α)) (k : String) (v : α) :
    getProp (setProp l k v) k = some v := by
  induction l with
  | nil => simp [setProp, getProp]
  | cons h t ih =>
    by_cases hk : h.1 = k
    · simp [setProp, hk, getProp]
    · simp [setProp, hk, getProp, ih]

theorem getProp_setProp_ne {α : Type} (l : List (String × α)) (k k2 : String) (v : α)
    (h : k ≠ k2) : getProp (setProp l k v) k2 = getProp l k2 := by
  induction l with
  | nil => simp [setProp, getProp, h]
  | cons hd t ih =>
    by_cases hk : hd.1 = k
    · simp [setProp, hk, getProp, h]
    · simp [setProp, hk, getProp, ih]

theorem getProp_delProp_eq {α : Type} (l : List (String × α)) (k : String) :
    getProp (delProp l k) k = none := by
  induction l with
  | nil => simp [delProp, getProp]
  | cons hd t ih =>
    by_cases hk : hd.1 = k
    · simpa [delProp, hk] using ih
    · simpa [delProp, hk, getProp] using ih

theorem getProp_delProp_ne {α : Type} (l : List (String × α)) (k k2 : String)
    (h : k ≠ k2) : getProp (delProp l k) k2 = getProp l k2 := by
  induction l with
  | nil => simp [delProp, getProp]
  | cons hd t ih =>
    by_cases hk : hd.1 = k
    · simp only [delProp, List.filter_cons] at *
      simpa [hk, getProp, h] using ih
    · by_cases hk2 : hd.1 = k2
      · have hne : k2 ≠ k := by rw [← hk2]; exact hk
        simp only [delProp, List.filter_cons] at *
        simp [hk, getProp, hk2, hne]
      · simp only [delProp, List.filter_cons] at *
        simpa [hk, getProp, hk2] using ih

/-- Synthetic uid property name, `Model.uidProp = '#id'`. -/
def uidProp : String := "#id"

/-- Synthetic reference property name, `Model.uidRefProp = '#ref'`. -/
def uidRefProp : String := "#ref"

/-- Embedding of `Model.prototype.$propKey(props)`: the values of the given
properties, string-coerced and joined with commas (the source's arity
switch computes exactly this comma join for every arity). -/
def propKey (m : JObj) (props : List String) : String :=
  String.intercalate "," (props.map (fun p => jsToStringO (getProp m p)))

/-- Embedding of one key of `omitArray` inside `Model.prototype.$omit`:
keys starting with `$` are skipped, otherwise the property is deleted when
present (`Model.omitImpl`). -/
def omitKey (m : JObj) (k : String) : JObj :=
  if k.take 1 = "$" then m
  else if (getProp m k).isSome then delProp m k else m

/-- Embedding of `_.uniq` (first occurrence of each element wins). -/
def uniqAux (seen : List String) : List String → List String
  | [] => []
  | x :: t => if x ∈ seen then uniqAux seen t else x :: uniqAux (x :: seen) t

/-- Lodash `_.uniq`. -/
def uniq (l : List String) : List String := uniqAux [] l

/-- Embedding of `_.uniqBy(models, f)` (first element with each distinct
`f` value wins). -/
def uniqBy (f : JObj → String) (seen : List String) : List JObj → List JObj
  | [] => []
  | x :: t => if f x ∈ seen then uniqBy f seen t else x :: uniqBy f (f x :: seen) t

/-- The key union computed in `_createManyToManyRelationJoinRowBatch`:
`_.uniq(_.flatMap(tableInsertion.models, _.keys))`. -/
def joinRowKeys (models : List JObj) : List String :=
  uniq (models.flatMap objKeys)

/-- The duplicate-removal pass of `_createManyToManyRelationJoinRowBatch`:
`_.uniqBy(models, model => model.$propKey(keys))` with `keys` the union of
all keys present across the built join rows. -/
def dedupJoinRows (models : List JObj) : List JObj :=
  uniqBy (fun m => propKey m (joinRowKeys models)) [] models

/-- Embedding of `GraphInserter._omitUids`: collect the uid value of every
model of the table insertion (`_.map(models, uidProp)`), then `$omit` the
uid property from each model; returns the collected uids and the stripped
models. -/
def omitUids (models : List JObj) : List (Option JsVal) × List JObj :=
  (models.map (fun m => getProp m uidProp), models.map (fun m => omitKey m uidProp))

/-- A dependency-graph node as consumed by `GraphInserter._finalize`: the
node's model object and the relation names of the node's model class
(`modelClass.getRelations()` key set). -/
structure FNode where
  model : JObj
  relations : List String
deriving Repr, DecidableEq

/-- Copy condition of the property-copy loop in `GraphInserter._finalize`:
a key of the referenced node's model is copied when it is not a declared
relation and its value is not a function. -/
def copyCond (actual : JObj) (relations : List String) (k : String) : Bool :=
  match getProp actual k with
  | some v => !(relations.contains k) && !(v == JsVal.fn)
  | none => false

/-- The per-reference-node body of `GraphInserter._finalize`: copy every
non-relation, non-function property of the referenced node's model onto
the reference model, then `$omit` the uid and ref properties from it. -/
def finalizeRefModel (refModel : JObj) (actual : JObj) (relations : List String) : JObj :=
  omitKey (omitKey ((objKeys actual).foldl (fun acc key =>
    match getProp actual key with
    | some v => if !(relations.contains key) && !(v == JsVal.fn) then setProp acc key v else acc
    | none => acc) refModel) uidProp) uidRefProp

/-- Embedding of the per-node step of `GraphInserter._finalize`: a node
whose model has a truthy `#ref` property receives the referenced node's
properties and loses its synthetic properties; other nodes are left
untouched. A dangling reference makes the source throw (reading
`modelClass` of `undefined`), embedded as `none`. `nodesById` is keyed by
the string coercion of the uid, as JavaScript object keys are. -/
def finalizeNode (nodesById : List (String × FNode)) (n : FNode) : Option JObj :=
  match getProp n.model uidRefProp with
  | some r =>
    if truthy r then
      match getProp nodesById (jsToString r) with
      | some actual => some (finalizeRefModel n.model actual.model actual.relations)
      | none => none
    else some n.model
  | none => some n.model

/-- Embedding of the whole `GraphInserter._finalize` loop followed by
`Promise.resolve(this.models)`: the resolved value is the input graph's
model list, each model finalized in place. -/
def finalizeGraph (nodesById : List (String × FNode)) (nodes : List FNode) :
    Option (List JObj) :=
  nodes.mapM (finalizeNode nodesById)

theorem getProp_omitKey_self (m : JObj) (k : String) (h : k.take 1 ≠ "$") :
    getProp (omitKey m k) k = none := by
  unfold omitKey
  rw [if_neg h]
  by_cases h2 : (getProp m k).isSome
  · simp [h2, getProp_delProp_eq]
  · rw [if_neg h2]
    exact Option.not_isSome_iff_eq_none.mp h2

theorem getProp_omitKey_ne (m : JObj) (k k2 : String) (h : k ≠ k2) :
    getProp (omitKey m k) k2 = getProp m k2 := by
  unfold omitKey
  by_cases hd : k.take 1 = "$"
  · rw [if_pos hd]
  · rw [if_neg hd]
    by_cases h2 : (getProp m k).isSome
    · simp [h2, getProp_delProp_ne _ _ _ h]
    · simp [h2]

theorem getProp_mem_objKeys {α : Type} (l : List (String × α)) (k : String) (v : α)
    (h : getProp l k = some v) : k ∈ objKeys l := by
  induction l with
  | nil => simp [getProp] at h
  | cons hd t ih =>
    simp only [getProp] at h
    by_cases hk : hd.1 = k
    · simp [objKeys, hk]
    · rw [if_neg hk] at h
      simp [objKeys] at ih ⊢
      right
      simpa [objKeys] using ih h

theorem uniqBy_subset (f : JObj → String) (seen : List String) (l : List JObj) :
    ∀ m ∈ uniqBy f seen l, m ∈ l := by
  induction l generalizing seen with
  | nil => simp [uniqBy]
  | cons x t ih =>
    intro m hm
    simp only [uniqBy] at hm
    by_cases hx : f x ∈ seen
    · rw [if_pos hx] at hm
      exact List.mem_cons_of_mem _ (ih seen m hm)
    · rw [if_neg hx] at hm
      rcases List.mem_cons.mp hm with hm | hm
      · simp [hm]
      · exact List.mem_cons_of_mem _ (ih _ m hm)

theorem uniqBy_filter_of_seen (f : JObj → String) (seen : List String) (l : List JObj)
    (key : String) (hkey : key ∈ seen) :
    (uniqBy f seen l).filter (fun m => f m == key) = [] := by
  induction l generalizing seen with
  | nil => simp [uniqBy]
  | cons x t ih =>
    simp only [uniqBy]
    by_cases hx : f x ∈ seen
    · rw [if_pos hx]; exact ih seen hkey
    · rw [if_neg hx]
      have hne : ¬ (f x == key) = true := by
        simp only [beq_iff_eq]
        intro hxx
        exact hx (hxx ▸ hkey)
      rw [List.filter_cons, if_neg hne]
      exact ih (f x :: seen) (List.mem_cons_of_mem _ hkey)

theorem uniqBy_filter_of_mem (f : JObj → String) (seen : List String) (l : List JObj)
    (key : String) (m0 : JObj) (hkey : key ∉ seen) (hm0 : m0 ∈ l) (hf : f m0 = key) :
    ((uniqBy f seen l).filter (fun m => f m == key)).length = 1 := by
  induction l generalizing seen with
  | nil => simp at hm0
  | cons x t ih =>
    simp only [uniqBy]
    by_cases hx : f x ∈ seen
    · rw [if_pos hx]
      have hm0t : m0 ∈ t := by
        rcases List.mem_cons.mp hm0 with he | h
        · exfalso
          apply hkey
          rw [← hf, he]
          exact hx
        · assumption
      exact ih seen hkey hm0t
    · rw [if_neg hx]
      by_cases hfx : f x = key
      · have : (f x == key) = true := by simpa using hfx
        rw [List.filter_cons, if_pos this]
        rw [uniqBy_filter_of_seen f (f x :: seen) t key (by simp [hfx])]
        rfl
      · have hne : ¬ (f x == key) = true := by simpa using hfx
        rw [List.filter_cons, if_neg hne]
        have hm0t : m0 ∈ t := by
          rcases List.mem_cons.mp hm0 with he | h
          · exact absurd (he ▸ hf) hfx
          · assumption
        refine ih (f x :: seen) ?_ hm0t
        intro hc
        rcases List.mem_cons.mp hc with hc | hc
        · exact hfx hc.symm
        · exact hkey hc

/-- C2: in the final many-to-many pass, join rows are deduplicated by the
values of the union of all property keys present across the join rows
built for the table: two rows with identical values on that key union get
the same `$propKey` and exactly one row with that key survives `_.uniqBy`;
every surviving row is one of the built rows. -/
theorem joinRow_dedup (models : List JObj) (m1 m2 : JObj)
    (h1 : m1 ∈ models) (h2 : m2 ∈ models)
    (hagree : ∀ k ∈ joinRowKeys models, getProp m1 k = getProp m2 k) :
    propKey m1 (joinRowKeys models) = propKey m2 (joinRowKeys models) ∧
    ((dedupJoinRows models).filter
        (fun m => propKey m (joinRowKeys models) == propKey m1 (joinRowKeys models))).length = 1 ∧
    (∀ m ∈ dedupJoinRows models, m ∈ models) := by
  refine ⟨?_, ?_, ?_⟩
  · unfold propKey
    congr 1
    apply List.map_congr_left
    intro k hk
    rw [hagree k hk]
  · exact uniqBy_filter_of_mem _ [] models _ m1 (by simp) h1 rfl
  · exact uniqBy_subset _ [] models

/-- C2 witness: a concrete instantiation where the same owner/related pair
was built through two input paths; the key union is `[ownerId, relatedId]`
and exactly one of the two identical join rows survives. -/
theorem joinRow_dedup_witness :
    (("ownerId", JsVal.num 1) :: [("relatedId", JsVal.num 2)]) ∈
        [[("ownerId", JsVal.num 1), ("relatedId", JsVal.num 2)],
         [("ownerId", JsVal.num 1), ("relatedId", JsVal.num 2)]] ∧
    propKey [("ownerId", JsVal.num 1), ("relatedId", JsVal.num 2)]
        (joinRowKeys [[("ownerId", JsVal.num 1), ("relatedId", JsVal.num 2)],
          [("ownerId", JsVal.num 1), ("relatedId", JsVal.num 2)]]) =
      propKey [("ownerId", JsVal.num 1), ("relatedId", JsVal.num 2)]
        (joinRowKeys [[("ownerId", JsVal.num 1), ("relatedId", JsVal.num 2)],
          [("ownerId", JsVal.num 1), ("relatedId", JsVal.num 2)]]) ∧
    ((dedupJoinRows [[("ownerId", JsVal.num 1), ("relatedId", JsVal.num 2)],
          [("ownerId", JsVal.num 1), ("relatedId", JsVal.num 2)]]).filter
        (fun m => propKey m (joinRowKeys [[("ownerId", JsVal.num 1), ("relatedId", JsVal.num 2)],
          [("ownerId", JsVal.num 1), ("relatedId", JsVal.num 2)]]) ==
            propKey [("ownerId", JsVal.num 1), ("relatedId", JsVal.num 2)]
              (joinRowKeys [[("ownerId", JsVal.num 1), ("relatedId", JsVal.num 2)],
                [("ownerId", JsVal.num 1), ("relatedId", JsVal.num 2)]]))).length = 1 := by
  refine ⟨by decide, ?_, ?_⟩
  · exact (joinRow_dedup _ _ _ (by decide) (by decide) (by decide)).1
  · exact (joinRow_dedup
      [[("ownerId", JsVal.num 1), ("relatedId", JsVal.num 2)],
       [("ownerId", JsVal.num 1), ("relatedId", JsVal.num 2)]]
      [("ownerId", JsVal.num 1), ("relatedId", JsVal.num 2)]
      [("ownerId", JsVal.num 1), ("relatedId", JsVal.num 2)]
      (by decide) (by decide) (by decide)).2.1

/-- C8: `_omitUids` returns the uid values of the models in input order,
keeps the model list's length and order, removes the uid property from
every model, and leaves every other property unchanged. -/
theorem omitUids_spec (models : List JObj) (i : Nat) (k : String)
    (h : i < models.length) (hk : k ≠ uidProp) :
    (omitUids models).1 = models.map (fun m => getProp m uidProp) ∧
    (omitUids models).2.length = models.length ∧
    ∃ orig stripped, models[i]? = some orig ∧ (omitUids models).2[i]? = some stripped ∧
      getProp stripped uidProp = none ∧ getProp stripped k = getProp orig k := by
  refine ⟨rfl, by simp [omitUids], ?_⟩
  refine ⟨models[i], omitKey models[i] uidProp, by simp [h], ?_, ?_, ?_⟩
  · simp [omitUids, h]
  · exact getProp_omitKey_self _ _ (by decide)
  · exact getProp_omitKey_ne _ _ _ (fun he => hk he.symm)

/-- C8 witness: a concrete two-model table insertion; uid values are
collected in order, the uid property is gone and the `name` property is
untouched. -/
theorem omitUids_spec_witness :
    (1 < ([[("#id", JsVal.str "a"), ("name", JsVal.str "x")],
           [("#id", JsVal.str "b"), ("name", JsVal.str "y")]] : List JObj).length ∧
      "name" ≠ uidProp) ∧
    ((omitUids [[("#id", JsVal.str "a"), ("name", JsVal.str "x")],
        [("#id", JsVal.str "b"), ("name", JsVal.str "y")]]).1 =
      [[("#id", JsVal.str "a"), ("name", JsVal.str "x")],
       [("#id", JsVal.str "b"), ("name", JsVal.str "y")]].map (fun m => getProp m uidProp) ∧
    (omitUids [[("#id", JsVal.str "a"), ("name", JsVal.str "x")],
        [("#id", JsVal.str "b"), ("name", JsVal.str "y")]]).2.length =
      ([[("#id", JsVal.str "a"), ("name", JsVal.str "x")],
        [("#id", JsVal.str "b"), ("name", JsVal.str "y")]] : List JObj).length ∧
    ∃ orig stripped,
      ([[("#id", JsVal.str "a"), ("name", JsVal.str "x")],
        [("#id", JsVal.str "b"), ("name", JsVal.str "y")]] : List JObj)[1]? = some orig ∧
      (omitUids [[("#id", JsVal.str "a"), ("name", JsVal.str "x")],
        [("#id", JsVal.str "b"), ("name", JsVal.str "y")]]).2[1]? = some stripped ∧
      getProp stripped uidProp = none ∧ getProp stripped "name" = getProp orig "name") :=
  ⟨⟨by decide, by decide⟩,
    omitUids_spec [[("#id", JsVal.str "a"), ("name", JsVal.str "x")],
      [("#id", JsVal.str "b"), ("name", JsVal.str "y")]] 1 "name" (by decide) (by decide)⟩

theorem copyFold_getProp (actual : JObj) (relations : List String) (keys : List String)
    (acc : JObj) (k : String) :
    getProp (keys.foldl (fun acc key =>
      match getProp actual key with
      | some v => if !(relations.contains key) && !(v == JsVal.fn) then setProp acc key v else acc
      | none => acc) acc) k
      = if k ∈ keys ∧ copyCond actual relations k then getProp actual k else getProp acc k := by
  induction keys generalizing acc with
  | nil => simp
  | cons key t ih =>
    rw [List.foldl_cons, ih]
    by_cases hmem : k ∈ t ∧ copyCond actual relations k
    · rw [if_pos hmem, if_pos ⟨List.mem_cons_of_mem _ hmem.1, hmem.2⟩]
    · rw [if_neg hmem]
      by_cases hkk : key = k
      · subst hkk
        cases hv : getProp actual key with
        | none =>
          have hcc : copyCond actual relations key = false := by
            simp [copyCond, hv]
          simp [hcc, hmem]
        | some v =>
          by_cases hpass : (!(relations.contains key) && !(v == JsVal.fn)) = true
          · have hcc : copyCond actual relations key = true := by
              simp only [copyCond, hv]; exact hpass
            simp only [hv, hpass, if_true]
            rw [getProp_setProp_eq, if_pos ⟨List.mem_cons_self _ _, hcc⟩]
          · have hcc : copyCond actual relations key = false := by
              simp only [copyCond, hv]
              simpa using hpass
            simp only [hv]
            rw [if_neg hpass, if_neg (by simp [hcc])]
      · have hstep : getProp (match getProp actual key with
            | some v => if !(relations.contains key) && !(v == JsVal.fn)
                then setProp acc key v else acc
            | none => acc) k = getProp acc k := by
          cases hv : getProp actual key with
          | none => rfl
          | some v =>
            by_cases hpass : (!(relations.contains key) && !(v == JsVal.fn)) = true
            · simp only [hpass, if_true]
              exact getProp_setProp_ne _ _ _ _ hkk
            · show getProp (if (!(relations.contains key) && !(v == JsVal.fn)) = true
                  then setProp acc key v else acc) k = getProp acc k
              rw [if_neg hpass]
        rw [hstep]
        have : ¬ (k ∈ key :: t ∧ copyCond actual relations k) := by
          intro hc
          rcases List.mem_cons.mp hc.1 with he | hmem2
          · exact hkk he.symm
          · exact hmem ⟨hmem2, hc.2⟩
        rw [if_neg this]

/-- C3: `execute` resolves with the input graph after `_finalize`: a node
whose model carries a (truthy) `#ref` reference to another node receives
every non-relation, non-function property of the referenced node's final
model, keeps its other own properties, and then loses the synthetic `#id`
and `#ref` properties. -/
theorem finalize_spec (nodesById : List (String × FNode)) (n actual : FNode)
    (r v : JsVal) (k : String)
    (href : getProp n.model uidRefProp = some r)
    (htr : truthy r = true)
    (hact : getProp nodesById (jsToString r) = some actual)
    (hk1 : k ≠ uidProp) (hk2 : k ≠ uidRefProp)
    (hkv : getProp actual.model k = some v)
    (hrel : actual.relations.contains k = false)
    (hfn : v ≠ JsVal.fn) :
    ∃ m, finalizeNode nodesById n = some m ∧
      getProp m uidProp = none ∧
      getProp m uidRefProp = none ∧
      getProp m k = some v ∧
      (∀ k2, k2 ≠ uidProp → k2 ≠ uidRefProp →
        copyCond actual.model actual.relations k2 = false →
        getProp m k2 = getProp n.model k2) := by
  refine ⟨finalizeRefModel n.model actual.model actual.relations, ?_, ?_, ?_, ?_, ?_⟩
  · unfold finalizeNode
    rw [href]
    simp only [htr, if_true]
    rw [hact]
  · unfold finalizeRefModel
    rw [getProp_omitKey_ne _ _ _ (by decide), getProp_omitKey_self _ _ (by decide)]
  · exact getProp_omitKey_self _ _ (by decide)
  · unfold finalizeRefModel
    rw [getProp_omitKey_ne _ _ _ (fun h => hk2 h.symm),
      getProp_omitKey_ne _ _ _ (fun h => hk1 h.symm)]
    rw [copyFold_getProp]
    have hcc : copyCond actual.model actual.relations k = true := by
      simp only [copyCond, hkv, hrel, Bool.not_false, Bool.true_and, Bool.not_eq_true']
      exact beq_eq_false_iff_ne.mpr hfn
    rw [if_pos ⟨getProp_mem_objKeys _ _ _ hkv, hcc⟩, hkv]
  · intro k2 hk21 hk22 hcc
    unfold finalizeRefModel
    rw [getProp_omitKey_ne _ _ _ (fun h => hk22 h.symm),
      getProp_omitKey_ne _ _ _ (fun h => hk21 h.symm)]
    rw [copyFold_getProp, if_neg (by simp [hcc])]

/-- C3 witness: a reference node `{#id: r1, #ref: a, extra: 9}` pointing at
the actual node `{name: n, rel: fn}` with relation set `[rel]`; the
finalized model keeps `extra`, gains `name`, does not gain the relation
key, and carries neither `#id` nor `#ref`. -/
theorem finalize_spec_witness :
    ∃ m, finalizeNode [("a", ⟨[("name", JsVal.str "n"), ("rel", JsVal.fn)], ["rel"]⟩)]
        ⟨[("#id", JsVal.str "r1"), ("#ref", JsVal.str "a"), ("extra", JsVal.num 9)], []⟩ = some m ∧
      getProp m uidProp = none ∧
      getProp m uidRefProp = none ∧
      getProp m "name" = some (JsVal.str "n") ∧
      (∀ k2, k2 ≠ uidProp → k2 ≠ uidRefProp →
        copyCond [("name", JsVal.str "n"), ("rel", JsVal.fn)] ["rel"] k2 = false →
        getProp m k2 =
          getProp [("#id", JsVal.str "r1"), ("#ref", JsVal.str "a"), ("extra", JsVal.num 9)] k2) :=
  finalize_spec [("a", ⟨[("name", JsVal.str "n"), ("rel", JsVal.fn)], ["rel"]⟩)]
    ⟨[("#id", JsVal.str "r1"), ("#ref", JsVal.str "a"), ("extra", JsVal.num 9)], []⟩
    ⟨[("name", JsVal.str "n"), ("rel", JsVal.fn)], ["rel"]⟩
    (JsVal.str "a") (JsVal.str "n") "name"
    (by decide) (by decide) (by decide) (by decide) (by decide) (by decide) (by decide)
    (by decide)

/-- A dependency-graph node as consumed by the batching loop of
`GraphInserter`: its table name, the `needs` and `isNeededBy` edge lists
and the two mutable progress fields. Nodes are addressed by their position
in the node array; `DependencyGraph` assigns every node a unique uid and
`nodesById` resolves a uid back to its node, which the embedding renders
as direct indices. -/
structure GNode where
  table : String
  needs : List Nat
  isNeededBy : List Nat
  handled : Bool
  numHandledNeeds : Nat
deriving Repr, DecidableEq

/-- The node array `this.graph.nodes`. -/
abbrev Graph := List GNode

/-- Table name of node `i` (dummy value out of range). -/
def tableOf (g : Graph) (i : Nat) : String :=
  match g[i]? with
  | some nd => nd.table
  | none => ""

/-- Needs list of node `i`. -/
def needsOf (g : Graph) (i : Nat) : List Nat :=
  match g[i]? with
  | some nd => nd.needs
  | none => []

/-- Reverse edge list of node `i`. -/
def isNeededByOf (g : Graph) (i : Nat) : List Nat :=
  match g[i]? with
  | some nd => nd.isNeededBy
  | none => []

/-- Handled flag of node `i`. -/
def handledOf (g : Graph) (i : Nat) : Bool :=
  match g[i]? with
  | some nd => nd.handled
  | none => false

/-- Handled-needs counter of node `i`. -/
def numHandledOf (g : Graph) (i : Nat) : Nat :=
  match g[i]? with
  | some nd => nd.numHandledNeeds
  | none => 0

/-- In-place update of the node at index `i` (no-op out of range). -/
def updateAt (g : Graph) (i : Nat) (f : GNode → GNode) : Graph :=
  match g[i]? with
  | some nd => g.set i (f nd)
  | none => g

/-- Eligibility test of `_createBatch`:
`!node.handled && node.needs.length === node.numHandledNeeds`. -/
def eligible (g : Graph) (i : Nat) : Bool :=
  !(handledOf g i) && (needsOf g i).length == numHandledOf g i

/-- The indices of the nodes selected by one `_createBatch` scan, in node
order. -/
def eligibleList (g : Graph) : List Nat :=
  (List.range g.length).filter (fun i => eligible g i)

/-- Insertion of one model into the per-table grouping of a batch: the
model is appended to its table's `TableInsertion`, which is created on
first use (`batch[node.modelClass.tableName]`). -/
def groupInsert (batch : List (String × List Nat)) (t : String) (i : Nat) :
    List (String × List Nat) :=
  match batch with
  | [] => [(t, [i])]
  | (t', l) :: rest => if t' = t then (t', l ++ [i]) :: rest else (t', l) :: groupInsert rest t i

/-- Embedding of `GraphInserter._createBatch`: scan all nodes in order and
group every unhandled node whose needs are all counted handled into its
table's `TableInsertion`. -/
def createBatch (g : Graph) : List (String × List Nat) :=
  (List.range g.length).foldl
    (fun batch i => if eligible g i then groupInsert batch (tableOf g i) i else batch) []

/-- The flattened model list of a batch,
`_.flatten(_.map(batch, 'models'))` in `_markBatchHandled`. -/
def batchModels (batch : List (String × List Nat)) : List Nat :=
  batch.flatMap Prod.snd

/-- The counter increment `dep.node.numHandledNeeds++`. -/
def bumpNum (nd : GNode) : GNode := { nd with numHandledNeeds := nd.numHandledNeeds + 1 }

/-- The flag assignment `node.handled = true`. -/
def setHandledTrue (nd : GNode) : GNode := { nd with handled := true }

/-- The increment loop of `_markBatchHandled` for one handled node: every
node that needed it gets `numHandledNeeds` incremented. -/
def incNeeds (g : Graph) (i : Nat) : Graph :=
  (isNeededByOf g i).foldl (fun g2 j => updateAt g2 j bumpNum) g

/-- Marking of one model in `_markBatchHandled`: bump the dependants'
counters, then set the node's `handled` flag. -/
def markOne (g : Graph) (i : Nat) : Graph :=
  updateAt (incNeeds g i) i setHandledTrue

/-- Embedding of `GraphInserter._markBatchHandled` over the batch's
flattened model list. -/
def markBatchHandled (g : Graph) (batch : List (String × List Nat)) : Graph :=
  (batchModels batch).foldl markOne g

/-- The graph state before the `k`-th `_createBatch` scan: each round with
a non-empty batch marks that batch handled; an empty scan leaves the state
unchanged (the inserter sets `done` and stops scanning). -/
def roundState (g : Graph) : Nat → Graph
  | 0 => g
  | k + 1 =>
    let gk := roundState g k
    let b := createBatch gk
    if b = [] then gk else markBatchHandled gk b

/-- The models of the `k`-th batch ( `[]` once the scans come up empty). -/
def nthBatchModels (g : Graph) (k : Nat) : List Nat :=
  batchModels (createBatch (roundState g k))

/-- Count of handled nodes of the graph. -/
def countHandled (g : Graph) : Nat :=
  (List.range g.length).countP (fun i => handledOf g i)

/-- The mutable state driving `_nextBatch`: the node graph and the `done`
flag. -/
structure InsState where
  g : Graph
  done : Bool
deriving Repr, DecidableEq

/-- A batch as returned by `_nextBatch`: either an entity batch or the
single join-row batch produced by
`_createManyToManyRelationJoinRowBatch` when a scan comes up empty. -/
inductive BatchK where
  | entity (b : List (String × List Nat))
  | joinRows
deriving Repr, DecidableEq

/-- Embedding of `GraphInserter._nextBatch`: `null` when done; otherwise
an empty scan sets `done` and yields the join-row batch, and a non-empty
scan is marked handled and returned. -/
def nextBatch (s : InsState) : Option BatchK × InsState :=
  if s.done then (none, s)
  else
    let b := createBatch s.g
    if b = [] then (some .joinRows, { s with done := true })
    else (some (.entity b), { s with g := markBatchHandled s.g b })

/-- Embedding of the `_executeNextBatch` recursion: each call takes one
batch from `_nextBatch` and recurses; a `null` batch finalizes. The fuel
counts recursive calls; `none` means the fuel ran out before
finalization, which the termination theorem rules out. -/
def execute (fuel : Nat) (s : InsState) : Option (List BatchK) :=
  match fuel with
  | 0 => none
  | fuel + 1 =>
    match nextBatch s with
    | (none, _) => some []
    | (some bk, s2) => (execute fuel s2).map (fun tr => bk :: tr)

theorem length_updateAt (g : Graph) (i : Nat) (f : GNode → GNode) :
    (updateAt g i f).length = g.length := by
  unfold updateAt
  cases h : g[i]? with
  | none => rfl
  | some nd => simp

theorem getElem?_updateAt_ne (g : Graph) (i j : Nat) (f : GNode → GNode) (h : i ≠ j) :
    (updateAt g i f)[j]? = g[j]? := by
  unfold updateAt
  cases hg : g[i]? with
  | none => rfl
  | some nd => exact List.getElem?_set_ne h

theorem getElem?_updateAt_eq (g : Graph) (i : Nat) (f : GNode → GNode) :
    (updateAt g i f)[i]? = (g[i]?).map f := by
  unfold updateAt
  cases hg : g[i]? with
  | none => simp [hg]
  | some nd =>
    have hlt : i < g.length := by
      by_contra hge
      rw [List.getElem?_eq_none (Nat.le_of_not_lt hge)] at hg
      exact Option.noConfusion hg
    rw [List.getElem?_set_eq_of_lt _ hlt]
    rfl

theorem incList_pres (l : List Nat) (g : Graph) :
    ∀ j, (l.foldl (fun g2 j2 => updateAt g2 j2 bumpNum) g).length = g.length ∧
      tableOf (l.foldl (fun g2 j2 => updateAt g2 j2 bumpNum) g) j = tableOf g j ∧
      needsOf (l.foldl (fun g2 j2 => updateAt g2 j2 bumpNum) g) j = needsOf g j ∧
      isNeededByOf (l.foldl (fun g2 j2 => updateAt g2 j2 bumpNum) g) j = isNeededByOf g j ∧
      handledOf (l.foldl (fun g2 j2 => updateAt g2 j2 bumpNum) g) j = handledOf g j := by
  induction l generalizing g with
  | nil => intro j; exact ⟨rfl, rfl, rfl, rfl, rfl⟩
  | cons x t ih =>
    intro j
    have step : ∀ j2, (updateAt g x bumpNum).length = g.length ∧
        tableOf (updateAt g x bumpNum) j2 = tableOf g j2 ∧
        needsOf (updateAt g x bumpNum) j2 = needsOf g j2 ∧
        isNeededByOf (updateAt g x bumpNum) j2 = isNeededByOf g j2 ∧
        handledOf (updateAt g x bumpNum) j2 = handledOf g j2 := by
      intro j2
      refine ⟨length_updateAt g x bumpNum, ?_, ?_, ?_, ?_⟩ <;>
        · by_cases hx : x = j2
          · subst hx
            simp [tableOf, needsOf, isNeededByOf, handledOf, getElem?_updateAt_eq]
            cases g[x]? <;> simp [bumpNum]
          · simp [tableOf, needsOf, isNeededByOf, handledOf, getElem?_updateAt_ne g x j2 _ hx]
    rcases ih (updateAt g x bumpNum) j with ⟨h1, h2, h3, h4, h5⟩
    rcases step j with ⟨s1, s2, s3, s4, s5⟩
    exact ⟨by rw [List.foldl_cons, h1, s1], by rw [List.foldl_cons, h2, s2],
      by rw [List.foldl_cons, h3, s3], by rw [List.foldl_cons, h4, s4],
      by rw [List.foldl_cons, h5, s5]⟩

theorem incList_num (l : List Nat) (g : Graph) (j : Nat) (hj : j < g.length) :
    numHandledOf (l.foldl (fun g2 j2 => updateAt g2 j2 bumpNum) g) j
      = numHandledOf g j + l.count j := by
  induction l generalizing g with
  | nil => simp
  | cons x t ih =>
    rw [List.foldl_cons]
    have hlen : (updateAt g x bumpNum).length = g.length := length_updateAt g x bumpNum
    rw [ih (updateAt g x bumpNum) (by rw [hlen]; exact hj)]
    by_cases hx : x = j
    · subst hx
      have : numHandledOf (updateAt g x bumpNum) x = numHandledOf g x + 1 := by
        simp only [numHandledOf, getElem?_updateAt_eq]
        cases hg : g[x]? with
        | none => exact absurd hg (by simp [List.getElem?_eq_getElem hj])
        | some nd => simp [bumpNum]
      rw [this, List.count_cons_self]
      omega
    · have : numHandledOf (updateAt g x bumpNum) j = numHandledOf g j := by
        simp [numHandledOf, getElem?_updateAt_ne g x j _ hx]
      rw [this, List.count_cons_of_ne (fun he => hx he.symm)]

theorem incNeeds_pres (g : Graph) (i j : Nat) :
    (incNeeds g i).length = g.length ∧
    tableOf (incNeeds g i) j = tableOf g j ∧
    needsOf (incNeeds g i) j = needsOf g j ∧
    isNeededByOf (incNeeds g i) j = isNeededByOf g j ∧
    handledOf (incNeeds g i) j = handledOf g j := by
  unfold incNeeds
  exact incList_pres (isNeededByOf g i) g j

theorem incNeeds_num (g : Graph) (i j : Nat) (hj : j < g.length) :
    numHandledOf (incNeeds g i) j = numHandledOf g j + (isNeededByOf g i).count j := by
  unfold incNeeds
  exact incList_num (isNeededByOf g i) g j hj

theorem tableOf_updateAt (g : Graph) (i j : Nat) (f : GNode → GNode)
    (hf : ∀ nd, (f nd).table = nd.table) :
    tableOf (updateAt g i f) j = tableOf g j := by
  by_cases hx : i = j
  · subst hx
    simp only [tableOf, getElem?_updateAt_eq]
    cases g[i]? <;> simp [hf]
  · simp only [tableOf, getElem?_updateAt_ne _ _ _ _ hx]

theorem needsOf_updateAt (g : Graph) (i j : Nat) (f : GNode → GNode)
    (hf : ∀ nd, (f nd).needs = nd.needs) :
    needsOf (updateAt g i f) j = needsOf g j := by
  by_cases hx : i = j
  · subst hx
    simp only [needsOf, getElem?_updateAt_eq]
    cases g[i]? <;> simp [hf]
  · simp only [needsOf, getElem?_updateAt_ne _ _ _ _ hx]

theorem isNeededByOf_updateAt (g : Graph) (i j : Nat) (f : GNode → GNode)
    (hf : ∀ nd, (f nd).isNeededBy = nd.isNeededBy) :
    isNeededByOf (updateAt g i f) j = isNeededByOf g j := by
  by_cases hx : i = j
  · subst hx
    simp only [isNeededByOf, getElem?_updateAt_eq]
    cases g[i]? <;> simp [hf]
  · simp only [isNeededByOf, getElem?_updateAt_ne _ _ _ _ hx]

theorem numHandledOf_updateAt (g : Graph) (i j : Nat) (f : GNode → GNode)
    (hf : ∀ nd, (f nd).numHandledNeeds = nd.numHandledNeeds) :
    numHandledOf (updateAt g i f) j = numHandledOf g j := by
  by_cases hx : i = j
  · subst hx
    simp only [numHandledOf, getElem?_updateAt_eq]
    cases g[i]? <;> simp [hf]
  · simp only [numHandledOf, getElem?_updateAt_ne _ _ _ _ hx]

theorem markOne_pres (g : Graph) (i : Nat) :
    (markOne g i).length = g.length ∧
    ∀ j, tableOf (markOne g i) j = tableOf g j ∧
      needsOf (markOne g i) j = needsOf g j ∧
      isNeededByOf (markOne g i) j = isNeededByOf g j := by
  unfold markOne
  refine ⟨by rw [length_updateAt, (incNeeds_pres g i 0).1], fun j => ?_⟩
  rcases incNeeds_pres g i j with ⟨_, h2, h3, h4, _⟩
  refine ⟨?_, ?_, ?_⟩
  · rw [tableOf_updateAt (incNeeds g i) i j setHandledTrue (fun nd => rfl), h2]
  · rw [needsOf_updateAt (incNeeds g i) i j setHandledTrue (fun nd => rfl), h3]
  · rw [isNeededByOf_updateAt (incNeeds g i) i j setHandledTrue (fun nd => rfl), h4]

theorem markOne_handledOf (g : Graph) (i : Nat) (hi : i < g.length) (j : Nat) :
    handledOf (markOne g i) j = (handledOf g j || j == i) := by
  unfold markOne
  by_cases hx : i = j
  · subst hx
    simp only [handledOf, getElem?_updateAt_eq]
    cases hg : (incNeeds g i)[i]? with
    | none =>
      exfalso
      have : i < (incNeeds g i).length := by rw [(incNeeds_pres g i 0).1]; exact hi
      rw [List.getElem?_eq_getElem this] at hg
      exact Option.noConfusion hg
    | some nd => simp [setHandledTrue]
  · have h5 := (incNeeds_pres g i j).2.2.2.2
    simp only [handledOf, getElem?_updateAt_ne _ i j _ hx]
    simp only [handledOf] at h5
    rw [h5]
    have : (j == i) = false := by
      rw [Bool.beq_eq_decide_eq]
      exact decide_eq_false (fun he => hx he.symm)
    rw [this, Bool.or_false]

theorem markOne_numHandledOf (g : Graph) (i : Nat) (j : Nat) (hj : j < g.length) :
    numHandledOf (markOne g i) j = numHandledOf g j + (isNeededByOf g i).count j := by
  unfold markOne
  rw [numHandledOf_updateAt (incNeeds g i) i j setHandledTrue (fun nd => rfl)]
  exact incNeeds_num g i j hj

theorem markList_pres (b : List Nat) (g : Graph) :
    (b.foldl markOne g).length = g.length ∧
    ∀ j, tableOf (b.foldl markOne g) j = tableOf g j ∧
      needsOf (b.foldl markOne g) j = needsOf g j ∧
      isNeededByOf (b.foldl markOne g) j = isNeededByOf g j := by
  induction b generalizing g with
  | nil => exact ⟨rfl, fun j => ⟨rfl, rfl, rfl⟩⟩
  | cons x t ih =>
    rw [List.foldl_cons]
    rcases ih (markOne g x) with ⟨h1, h2⟩
    rcases markOne_pres g x with ⟨m1, m2⟩
    refine ⟨by rw [h1, m1], fun j => ?_⟩
    rcases h2 j with ⟨h2a, h2b, h2c⟩
    rcases m2 j with ⟨m2a, m2b, m2c⟩
    exact ⟨by rw [h2a, m2a], by rw [h2b, m2b], by rw [h2c, m2c]⟩

theorem markList_handledOf (b : List Nat) (g : Graph) (hb : ∀ x ∈ b, x < g.length) (j : Nat) :
    handledOf (b.foldl markOne g) j = (handledOf g j || b.contains j) := by
  induction b generalizing g with
  | nil => simp
  | cons x t ih =>
    rw [List.foldl_cons]
    have hx : x < g.length := hb x (List.mem_cons_self x t)
    have ht : ∀ y ∈ t, y < (markOne g x).length := by
      intro y hy
      rw [(markOne_pres g x).1]
      exact hb y (List.mem_cons_of_mem _ hy)
    rw [ih (markOne g x) ht, markOne_handledOf g x hx j]
    simp only [List.contains_cons]
    cases handledOf g j <;> cases hj : (j == x) <;> simp [hj]

theorem markList_numHandledOf (b : List Nat) (g : Graph) (j : Nat) (hj : j < g.length) :
    numHandledOf (b.foldl markOne g) j
      = numHandledOf g j + (b.map (fun i => (isNeededByOf g i).count j)).sum := by
  induction b generalizing g with
  | nil => simp
  | cons x t ih =>
    rw [List.foldl_cons]
    have hj2 : j < (markOne g x).length := by rw [(markOne_pres g x).1]; exact hj
    rw [ih (markOne g x) hj2, markOne_numHandledOf g x j hj]
    have : ∀ i, isNeededByOf (markOne g x) i = isNeededByOf g i :=
      fun i => ((markOne_pres g x).2 i).2.2
    simp only [List.map_cons, List.sum_cons, this]
    omega

theorem batchModels_groupInsert (batch : List (String × List Nat)) (t : String) (i : Nat) :
    (batchModels (groupInsert batch t i)).Perm (i :: batchModels batch) := by
  induction batch with
  | nil => simp [groupInsert, batchModels]
  | cons hd rest ih =>
    rcases hd with ⟨t2, l⟩
    simp only [groupInsert]
    by_cases ht : t2 = t
    · rw [if_pos ht]
      simp only [batchModels, List.flatMap_cons]
      rw [List.append_assoc]
      exact List.perm_middle
    · rw [if_neg ht]
      simp only [batchModels, List.flatMap_cons] at ih ⊢
      exact List.Perm.trans (ih.append_left l) List.perm_middle

theorem batchModels_createBatchAux (g : Graph) (l : List Nat)
    (acc : List (String × List Nat)) :
    (batchModels (l.foldl
        (fun batch i => if eligible g i then groupInsert batch (tableOf g i) i else batch)
        acc)).Perm
      (batchModels acc ++ l.filter (fun i => eligible g i)) := by
  induction l generalizing acc with
  | nil => simp
  | cons x t ih =>
    rw [List.foldl_cons, List.filter_cons]
    by_cases hx : eligible g x
    · rw [if_pos hx, if_pos hx]
      refine List.Perm.trans (ih (groupInsert acc (tableOf g x) x)) ?_
      refine List.Perm.trans
        ((batchModels_groupInsert acc (tableOf g x) x).append_right _) ?_
      exact List.perm_middle.symm
    · rw [if_neg hx, if_neg hx]
      exact ih acc

theorem batchModels_createBatch (g : Graph) :
    (batchModels (createBatch g)).Perm (eligibleList g) := by
  have h := batchModels_createBatchAux g (List.range g.length) []
  simpa [batchModels, eligibleList] using h

theorem eligibleList_nodup (g : Graph) : (eligibleList g).Nodup :=
  (List.nodup_range g.length).filter _

theorem mem_eligibleList (g : Graph) (i : Nat) :
    i ∈ eligibleList g ↔ i < g.length ∧ eligible g i = true := by
  simp [eligibleList, List.mem_filter, List.mem_range]

theorem createBatch_eq_nil_iff (g : Graph) :
    createBatch g = [] ↔ eligibleList g = [] := by
  constructor
  · intro h
    have := batchModels_createBatch g
    rw [h] at this
    exact (this.symm).eq_nil
  · intro h
    have hall : ∀ i ∈ List.range g.length, ¬ eligible g i = true := by
      intro i hi
      exact List.filter_eq_nil_iff.mp h i hi
    unfold createBatch
    have : ∀ (l : List Nat), (∀ i ∈ l, ¬ eligible g i = true) →
        l.foldl (fun batch i => if eligible g i then groupInsert batch (tableOf g i) i else batch)
          ([] : List (String × List Nat)) = [] := by
      intro l
      induction l with
      | nil => intro _; rfl
      | cons x t ih =>
        intro hl
        rw [List.foldl_cons, if_neg (hl x (List.mem_cons_self x t))]
        exact ih (fun i hi => hl i (List.mem_cons_of_mem _ hi))
    exact this _ hall

theorem countP_or_split {α : Type} (l : List α) (p q : α → Bool)
    (h : ∀ a ∈ l, ¬(p a = true ∧ q a = true)) :
    l.countP (fun a => p a || q a) = l.countP p + l.countP q := by
  induction l with
  | nil => simp
  | cons x t ih =>
    have ht : ∀ a ∈ t, ¬(p a = true ∧ q a = true) :=
      fun a ha => h a (List.mem_cons_of_mem _ ha)
    rw [List.countP_cons, List.countP_cons, List.countP_cons, ih ht]
    by_cases hp : p x = true
    · have hq : ¬ q x = true := fun hq => h x (List.mem_cons_self x t) ⟨hp, hq⟩
      simp [hp, hq]
      omega
    · by_cases hq : q x = true
      · simp [hp, hq]
        omega
      · simp [hp, hq]

theorem sum_indicator {α : Type} (l : List α) (p : α → Bool) :
    (l.map (fun x => if p x then 1 else 0)).sum = l.countP p := by
  induction l with
  | nil => simp
  | cons x t ih =>
    rw [List.map_cons, List.sum_cons, List.countP_cons, ih]
    by_cases hp : p x = true <;> simp [hp] <;> omega

theorem countP_mem_comm (l1 l2 : List Nat) (h1 : l1.Nodup) (h2 : l2.Nodup) :
    l1.countP (fun a => l2.contains a) = l2.countP (fun a => l1.contains a) := by
  induction l1 with
  | nil => simp [List.countP_eq_zero]
  | cons x t ih =>
    have hx : x ∉ t := (List.nodup_cons.mp h1).1
    have ht : t.Nodup := (List.nodup_cons.mp h1).2
    rw [List.countP_cons, ih ht]
    have split : l2.countP (fun a => (x :: t).contains a)
        = l2.countP (fun a => a == x || t.contains a) := by
      apply List.countP_congr
      intro a _
      simp [List.contains_cons]
    rw [split, countP_or_split l2 (fun a => a == x) (fun a => t.contains a)
      (by
        intro a _ hc
        rcases hc with ⟨hax, hat⟩
        have : a = x := by simpa using hax
        subst this
        exact hx (by simpa using hat))]
    have hcount : l2.countP (fun a => a == x) = if x ∈ l2 then 1 else 0 := by
      by_cases hmem : x ∈ l2
      · rw [if_pos hmem]
        exact List.count_eq_one_of_mem h2 hmem
      · rw [if_neg hmem]
        exact List.count_eq_zero_of_not_mem hmem
    rw [hcount]
    by_cases hmem : x ∈ l2 <;> simp [hmem] <;> omega

theorem count_eq_indicator (l : List Nat) (h : l.Nodup) (a : Nat) :
    l.count a = if l.contains a then 1 else 0 := by
  by_cases hm : a ∈ l
  · rw [if_pos (List.elem_iff.mpr hm)]
    exact List.count_eq_one_of_mem h hm
  · rw [if_neg (fun hc => hm (List.elem_iff.mp hc))]
    exact List.count_eq_zero_of_not_mem hm

/-- Well-formedness of the dependency graph as `DependencyGraph.build`
produces it: edges are in range, needs/isNeededBy are duplicate-free
converse relations and the progress fields start at `false`/`0`. -/
def WF (g : Graph) : Prop :=
  (∀ i, i < g.length →
    (∀ j ∈ needsOf g i, j < g.length) ∧
    (∀ j ∈ isNeededByOf g i, j < g.length) ∧
    (needsOf g i).Nodup ∧ (isNeededByOf g i).Nodup ∧
    handledOf g i = false ∧ numHandledOf g i = 0) ∧
  (∀ i, i < g.length → ∀ j, j < g.length → (j ∈ needsOf g i ↔ i ∈ isNeededByOf g j))

/-- The loop invariant of the batching rounds: the graph structure is
unchanged, a node is flagged handled exactly when it sat in an earlier
batch, and `numHandledNeeds` counts the handled members of `needs`. -/
def Inv (g gk : Graph) (k : Nat) : Prop :=
  gk.length = g.length ∧
  (∀ i, needsOf gk i = needsOf g i) ∧
  (∀ i, isNeededByOf gk i = isNeededByOf g i) ∧
  (∀ i, handledOf gk i = true ↔ ∃ j, j < k ∧ i ∈ nthBatchModels g j) ∧
  (∀ i, i < g.length → numHandledOf gk i = (needsOf g i).countP (fun u => handledOf gk u))

theorem handledOf_out_of_range (g : Graph) (i : Nat) (hi : ¬ i < g.length) :
    handledOf g i = false := by
  simp [handledOf, List.getElem?_eq_none (Nat.le_of_not_lt hi)]

theorem roundState_inv (g : Graph) (hwf : WF g) : ∀ k, Inv g (roundState g k) k := by
  intro k
  induction k with
  | zero =>
    rw [show roundState g 0 = g from rfl]
    refine ⟨rfl, fun i => rfl, fun i => rfl, ?_, ?_⟩
    · intro i
      constructor
      · intro hh
        exfalso
        by_cases hi : i < g.length
        · rw [(hwf.1 i hi).2.2.2.2.1] at hh
          exact Bool.noConfusion hh
        · rw [handledOf_out_of_range g i hi] at hh
          exact Bool.noConfusion hh
      · rintro ⟨j, hj, _⟩
        omega
    · intro i hi
      rw [(hwf.1 i hi).2.2.2.2.2]
      symm
      rw [List.countP_eq_zero]
      intro u hu
      have hu2 : u < g.length := (hwf.1 i hi).1 u hu
      simp [(hwf.1 u hu2).2.2.2.2.1]
  | succ k ih =>
    rcases ih with ⟨hlen, hneeds, hisnb, hhand, hnum⟩
    by_cases hb : createBatch (roundState g k) = []
    · have hstep : roundState g (k + 1) = roundState g k := by
        simp [roundState, hb]
      have hbatch : nthBatchModels g k = [] := by
        simp [nthBatchModels, hb, batchModels]
      refine ⟨by rw [hstep]; exact hlen, fun i => by rw [hstep]; exact hneeds i,
        fun i => by rw [hstep]; exact hisnb i, ?_, ?_⟩
      · intro i
        rw [hstep, hhand i]
        constructor
        · rintro ⟨j, hj, hm⟩
          exact ⟨j, by omega, hm⟩
        · rintro ⟨j, hj, hm⟩
          by_cases hjk : j = k
          · subst hjk
            rw [hbatch] at hm
            simp at hm
          · exact ⟨j, by omega, hm⟩
      · intro i hi
        rw [hstep]
        exact hnum i hi
    · have hstep : roundState g (k + 1)
          = (batchModels (createBatch (roundState g k))).foldl markOne (roundState g k) := by
        simp only [roundState]
        rw [if_neg hb]
        rfl
      have hperm : (batchModels (createBatch (roundState g k))).Perm
          (eligibleList (roundState g k)) := batchModels_createBatch (roundState g k)
      have hvalid : ∀ x ∈ batchModels (createBatch (roundState g k)),
          x < (roundState g k).length := by
        intro x hx
        exact ((mem_eligibleList _ x).mp (hperm.mem_iff.mp hx)).1
      have hvalidg : ∀ x ∈ batchModels (createBatch (roundState g k)), x < g.length :=
        fun x hx => hlen ▸ hvalid x hx
      have helig : ∀ x ∈ batchModels (createBatch (roundState g k)),
          eligible (roundState g k) x = true :=
        fun x hx => ((mem_eligibleList _ x).mp (hperm.mem_iff.mp hx)).2
      have hnodup : (batchModels (createBatch (roundState g k))).Nodup :=
        hperm.symm.nodup (eligibleList_nodup (roundState g k))
      have hbatchk : nthBatchModels g k = batchModels (createBatch (roundState g k)) := rfl
      refine ⟨?_, ?_, ?_, ?_, ?_⟩
      · rw [hstep, (markList_pres _ _).1]
        exact hlen
      · intro i
        rw [hstep, ((markList_pres _ _).2 i).2.1]
        exact hneeds i
      · intro i
        rw [hstep, ((markList_pres _ _).2 i).2.2]
        exact hisnb i
      · intro i
        rw [hstep, markList_handledOf _ _ hvalid i]
        constructor
        · intro hor
          rcases Bool.or_eq_true_iff.mp hor with hh | hc
          · rcases (hhand i).mp hh with ⟨j, hj, hm⟩
            exact ⟨j, by omega, hm⟩
          · exact ⟨k, by omega, by rw [hbatchk]; exact List.elem_iff.mp hc⟩
        · rintro ⟨j, hj, hm⟩
          by_cases hjk : j = k
          · subst hjk
            rw [hbatchk] at hm
            exact Bool.or_eq_true_iff.mpr (Or.inr (List.elem_iff.mpr hm))
          · exact Bool.or_eq_true_iff.mpr
              (Or.inl ((hhand i).mpr ⟨j, by omega, hm⟩))
      · intro i hi
        rw [hstep, markList_numHandledOf _ _ i (hlen ▸ hi)]
        have hsum : ((batchModels (createBatch (roundState g k))).map
              (fun x => (isNeededByOf (roundState g k) x).count i)).sum
            = (needsOf g i).countP
                (fun u => (batchModels (createBatch (roundState g k))).contains u) := by
          have e1 : (batchModels (createBatch (roundState g k))).map
                (fun x => (isNeededByOf (roundState g k) x).count i)
              = (batchModels (createBatch (roundState g k))).map
                (fun x => if (needsOf g i).contains x then 1 else 0) := by
            apply List.map_congr_left
            intro x hx
            rw [hisnb x]
            have hxg : x < g.length := hvalidg x hx
            have hnd : (isNeededByOf g x).Nodup := (hwf.1 x hxg).2.2.2.1
            rw [count_eq_indicator _ hnd i]
            by_cases him : i ∈ isNeededByOf g x
            · rw [if_pos (List.elem_iff.mpr him),
                if_pos (List.elem_iff.mpr ((hwf.2 i hi x hxg).mpr him))]
            · rw [if_neg (fun hc => him (List.elem_iff.mp hc)),
                if_neg (fun hc => him ((hwf.2 i hi x hxg).mp (List.elem_iff.mp hc)))]
          rw [e1, sum_indicator]
          exact countP_mem_comm _ _ hnodup (hwf.1 i hi).2.2.1
        rw [hsum]
        have hcongr : (needsOf g i).countP
              (fun u => handledOf ((batchModels (createBatch (roundState g k))).foldl
                markOne (roundState g k)) u)
            = (needsOf g i).countP
              (fun u => handledOf (roundState g k) u
                || (batchModels (createBatch (roundState g k))).contains u) := by
          apply List.countP_congr
          intro u _
          rw [markList_handledOf _ _ hvalid u]
        rw [hcongr, countP_or_split _ _ _ ?disj]
        case disj =>
          intro u _ hcc
          rcases hcc with ⟨hh, hc⟩
          have hu : u ∈ batchModels (createBatch (roundState g k)) := List.elem_iff.mp hc
          have := helig u hu
          unfold eligible at this
          rcases Bool.and_eq_true_iff.mp this with ⟨hnh, _⟩
          rw [Bool.not_eq_true'] at hnh
          rw [hh] at hnh
          exact Bool.noConfusion hnh
        rw [hnum i hi]

/-- C1: batches respect the topological order. A node enters a batch only
when it is unhandled with `numHandledNeeds` equal to `needs.length`; every
node sits in at most one batch (so it is marked handled at most once); and
every need of a batched node sat in a strictly earlier batch, whose
TableInsertions complete before the next batch starts. -/
theorem graphInserter_topological (g : Graph) (hwf : WF g) :
    (∀ k v u, v ∈ nthBatchModels g k → u ∈ needsOf g v →
      ∃ j, j < k ∧ u ∈ nthBatchModels g j) ∧
    (∀ k1 k2 v, v ∈ nthBatchModels g k1 → v ∈ nthBatchModels g k2 → k1 = k2) ∧
    (∀ k v, v ∈ nthBatchModels g k →
      handledOf (roundState g k) v = false ∧
      (needsOf (roundState g k) v).length = numHandledOf (roundState g k) v) := by
  have hmem : ∀ k v, v ∈ nthBatchModels g k →
      v < g.length ∧ eligible (roundState g k) v = true := by
    intro k v hv
    have hperm := batchModels_createBatch (roundState g k)
    have h := (mem_eligibleList _ v).mp (hperm.mem_iff.mp hv)
    exact ⟨(roundState_inv g hwf k).1 ▸ h.1, h.2⟩
  have helig : ∀ k v, v ∈ nthBatchModels g k →
      handledOf (roundState g k) v = false ∧
      (needsOf (roundState g k) v).length = numHandledOf (roundState g k) v := by
    intro k v hv
    have h := (hmem k v hv).2
    unfold eligible at h
    rcases Bool.and_eq_true_iff.mp h with ⟨hnh, heq⟩
    rw [Bool.not_eq_true'] at hnh
    exact ⟨hnh, beq_iff_eq.mp heq⟩
  refine ⟨?_, ?_, helig⟩
  · intro k v u hv hu
    rcases roundState_inv g hwf k with ⟨hlen, hneeds, _, hhand, hnum⟩
    rcases helig k v hv with ⟨_, hcnt⟩
    have hvlen : v < g.length := (hmem k v hv).1
    rw [hneeds v] at hcnt
    rw [hnum v hvlen] at hcnt
    have hall := List.countP_eq_length.mp hcnt.symm
    have hhu : handledOf (roundState g k) u = true := by
      have := hall u hu
      simpa using this
    exact (hhand u).mp hhu
  · intro k1 k2 v hv1 hv2
    rcases Nat.lt_trichotomy k1 k2 with hlt | heq | hgt
    · exfalso
      rcases roundState_inv g hwf k2 with ⟨_, _, _, hhand, _⟩
      have hh : handledOf (roundState g k2) v = true := (hhand v).mpr ⟨k1, hlt, hv1⟩
      rw [(helig k2 v hv2).1] at hh
      exact Bool.noConfusion hh
    · exact heq
    · exfalso
      rcases roundState_inv g hwf k1 with ⟨_, _, _, hhand, _⟩
      have hh : handledOf (roundState g k1) v = true := (hhand v).mpr ⟨k2, hgt, hv2⟩
      rw [(helig k1 v hv1).1] at hh
      exact Bool.noConfusion hh

theorem countP_strict {α : Type} (l : List α) (p q : α → Bool)
    (hpq : ∀ a ∈ l, p a = true → q a = true) (a0 : α) (ha : a0 ∈ l)
    (hp : p a0 = false) (hq : q a0 = true) : l.countP p < l.countP q := by
  induction l with
  | nil => simp at ha
  | cons x t ih =>
    rw [List.countP_cons, List.countP_cons]
    rcases List.mem_cons.mp ha with he | hat
    · subst he
      rw [hp, hq]
      have e0 : (if false = true then 1 else 0) = 0 := rfl
      have e1 : (if true = true then 1 else 0) = 1 := rfl
      rw [e0, e1]
      have : t.countP p ≤ t.countP q :=
        List.countP_mono_left (fun a hat => hpq a (List.mem_cons_of_mem _ hat))
      omega
    · have hst := ih (fun a hat2 => hpq a (List.mem_cons_of_mem _ hat2)) hat
      have hx : (if p x = true then 1 else 0) ≤ (if q x = true then 1 else 0) := by
        by_cases hpx : p x = true
        · rw [if_pos hpx, if_pos (hpq x (List.mem_cons_self x t) hpx)]
        · rw [if_neg hpx]
          omega
      omega

theorem markBatch_strict (g : Graph) (hb : createBatch g ≠ []) :
    countHandled g < countHandled (markBatchHandled g (createBatch g)) := by
  have hperm := batchModels_createBatch g
  have hne : eligibleList g ≠ [] := fun he => hb ((createBatch_eq_nil_iff g).mpr he)
  obtain ⟨i0, hi0⟩ : ∃ i0, i0 ∈ eligibleList g := by
    cases hel : eligibleList g with
    | nil => exact absurd hel hne
    | cons x t => exact ⟨x, by exact List.mem_cons_self x t⟩
  have hi0e := (mem_eligibleList g i0).mp hi0
  have hi0bm : i0 ∈ batchModels (createBatch g) := hperm.mem_iff.mpr hi0
  have hvalid : ∀ x ∈ batchModels (createBatch g), x < g.length :=
    fun x hx => ((mem_eligibleList g x).mp (hperm.mem_iff.mp hx)).1
  have hlen : (markBatchHandled g (createBatch g)).length = g.length :=
    (markList_pres _ _).1
  unfold countHandled
  rw [hlen]
  have hcongr : (List.range g.length).countP
        (fun i => handledOf (markBatchHandled g (createBatch g)) i)
      = (List.range g.length).countP
        (fun i => handledOf g i || (batchModels (createBatch g)).contains i) := by
    apply List.countP_congr
    intro i _
    rw [show markBatchHandled g (createBatch g)
        = (batchModels (createBatch g)).foldl markOne g from rfl,
      markList_handledOf _ _ hvalid i]
  rw [hcongr]
  apply countP_strict _ _ _ ?mono i0 (List.mem_range.mpr hi0e.1) ?pfalse ?qtrue
  case mono =>
    intro a _ hpa
    rw [hpa]
    rfl
  case pfalse =>
    have h := hi0e.2
    unfold eligible at h
    rcases Bool.and_eq_true_iff.mp h with ⟨hnh, _⟩
    rw [Bool.not_eq_true'] at hnh
    exact hnh
  case qtrue =>
    exact Bool.or_eq_true_iff.mpr (Or.inr (List.elem_iff.mpr hi0bm))

theorem execute_aux : ∀ fuel (g : Graph), g.length - countHandled g + 2 ≤ fuel →
    ∃ bs : List (List (String × List Nat)),
      execute fuel ⟨g, false⟩ = some (bs.map BatchK.entity ++ [BatchK.joinRows]) ∧
      bs.length ≤ g.length - countHandled g ∧ ∀ b ∈ bs, b ≠ [] := by
  intro fuel
  induction fuel with
  | zero =>
    intro g h
    omega
  | succ n ih =>
    intro g h
    by_cases hb : createBatch g = []
    · have h1 : nextBatch ⟨g, false⟩ = (some BatchK.joinRows, ⟨g, true⟩) := by
        simp [nextBatch, hb]
      obtain ⟨m, hm⟩ : ∃ m, n = m + 1 := ⟨n - 1, by omega⟩
      refine ⟨[], ?_, by simp, by simp⟩
      rw [show execute (n + 1) ⟨g, false⟩
          = match nextBatch ⟨g, false⟩ with
            | (none, _) => some []
            | (some bk, s2) => (execute n s2).map (fun tr => bk :: tr) from rfl, h1]
      subst hm
      simp [execute, nextBatch]
    · have hmark := markBatch_strict g hb
      have hlen : (markBatchHandled g (createBatch g)).length = g.length :=
        (markList_pres _ _).1
      have hch : countHandled (markBatchHandled g (createBatch g)) ≤ g.length := by
        unfold countHandled
        rw [hlen]
        calc (List.range g.length).countP _ ≤ (List.range g.length).length :=
              List.countP_le_length _
          _ = g.length := List.length_range g.length
      have harg : (markBatchHandled g (createBatch g)).length
            - countHandled (markBatchHandled g (createBatch g)) + 2 ≤ n := by
        rw [hlen]
        omega
      rcases ih (markBatchHandled g (createBatch g)) harg with ⟨bs, hex, hlen2, hne2⟩
      refine ⟨createBatch g :: bs, ?_, ?_, ?_⟩
      · have h1 : nextBatch ⟨g, false⟩
            = (some (BatchK.entity (createBatch g)),
               ⟨markBatchHandled g (createBatch g), false⟩) := by
          simp [nextBatch, hb]
        rw [show execute (n + 1) ⟨g, false⟩
            = match nextBatch ⟨g, false⟩ with
              | (none, _) => some []
              | (some bk, s2) => (execute n s2).map (fun tr => bk :: tr) from rfl, h1]
        show (execute n ⟨markBatchHandled g (createBatch g), false⟩).map
            (fun tr => BatchK.entity (createBatch g) :: tr)
          = some ((createBatch g :: bs).map BatchK.entity ++ [BatchK.joinRows])
        rw [hex]
        rfl
      · rw [hlen] at hlen2
        simp only [List.length_cons]
        omega
      · intro b hbm
        rcases List.mem_cons.mp hbm with he | hbs
        · rw [he]
          exact hb
        · exact hne2 b hbs

/-- C9: the batching loop of `execute` terminates on every dependency
graph, cyclic ones included: after at most `g.length` non-empty entity
batches the scan comes up empty, the single join-row batch is issued, and
the following `_nextBatch` call returns `null`, reaching finalization
within `g.length + 2` rounds. Nodes a cycle keeps ineligible are simply
never batched. -/
theorem graphInserter_terminates (g : Graph) :
    ∃ bs : List (List (String × List Nat)),
      execute (g.length + 2) ⟨g, false⟩
        = some (bs.map BatchK.entity ++ [BatchK.joinRows]) ∧
      bs.length ≤ g.length ∧ ∀ b ∈ bs, b ≠ [] := by
  have h : g.length - countHandled g + 2 ≤ g.length + 2 := by omega
  rcases execute_aux (g.length + 2) g h with ⟨bs, h1, h2, h3⟩
  exact ⟨bs, h1, by omega, h3⟩

/-- C9 witness: a two-node dependency cycle; the run terminates with zero
entity batches and the single join-row batch. -/
theorem graphInserter_terminates_witness :
    ∃ bs : List (List (String × List Nat)),
      execute (([⟨"a", [1], [1], false, 0⟩, ⟨"b", [0], [0], false, 0⟩] : Graph).length + 2)
          ⟨[⟨"a", [1], [1], false, 0⟩, ⟨"b", [0], [0], false, 0⟩], false⟩
        = some (bs.map BatchK.entity ++ [BatchK.joinRows]) ∧
      bs.length ≤ ([⟨"a", [1], [1], false, 0⟩, ⟨"b", [0], [0], false, 0⟩] : Graph).length ∧
      ∀ b ∈ bs, b ≠ [] :=
  graphInserter_terminates [⟨"a", [1], [1], false, 0⟩, ⟨"b", [0], [0], false, 0⟩]

/-- C1 witness: a two-node graph (child needs parent); batch membership is
topologically ordered, no node repeats across batches, and batched nodes
were eligible. -/
theorem graphInserter_topological_witness :
    (∀ k v u, v ∈ nthBatchModels [⟨"p", [], [1], false, 0⟩, ⟨"c", [0], [], false, 0⟩] k →
      u ∈ needsOf [⟨"p", [], [1], false, 0⟩, ⟨"c", [0], [], false, 0⟩] v →
      ∃ j, j < k ∧ u ∈ nthBatchModels [⟨"p", [], [1], false, 0⟩, ⟨"c", [0], [], false, 0⟩] j) ∧
    (∀ k1 k2 v, v ∈ nthBatchModels [⟨"p", [], [1], false, 0⟩, ⟨"c", [0], [], false, 0⟩] k1 →
      v ∈ nthBatchModels [⟨"p", [], [1], false, 0⟩, ⟨"c", [0], [], false, 0⟩] k2 → k1 = k2) ∧
    (∀ k v, v ∈ nthBatchModels [⟨"p", [], [1], false, 0⟩, ⟨"c", [0], [], false, 0⟩] k →
      handledOf (roundState [⟨"p", [], [1], false, 0⟩, ⟨"c", [0], [], false, 0⟩] k) v = false ∧
      (needsOf (roundState [⟨"p", [], [1], false, 0⟩, ⟨"c", [0], [], false, 0⟩] k) v).length
        = numHandledOf (roundState [⟨"p", [], [1], false, 0⟩, ⟨"c", [0], [], false, 0⟩] k) v) :=
  graphInserter_topological [⟨"p", [], [1], false, 0⟩, ⟨"c", [0], [], false, 0⟩] (by
    constructor
    · decide
    · decide)

/-- The database identifier length limit, `const idLengthLimit = 63`. -/
def idLengthLimit : Nat := 63

/-- Embedding of `RelationJoinBuilder.joinPath`: a non-empty (truthy) path
is joined to the next part with the separator. -/
def joinPath (sep path nextPart : String) : String :=
  if path ≠ "" then path ++ sep ++ nextPart else nextPart

/-- One entry of `relation.joinTableExtras`. -/
structure Extra where
  joinTableCol : String
  aliasCol : String
deriving Repr, DecidableEq

/-- One entry of the `selects` array in `buildSelects`: the qualified
column and its computed alias. -/
structure SelectItem where
  col : String
  aliasName : String
deriving Repr, DecidableEq

/-- The select-list construction of `RelationJoinBuilder.buildSelects`
before the length check: every table column passing the caller's filter or
belonging to the identifier is pushed with alias `joinPath(encPath, col)`
(columns kept only for the identifier are recorded in `omitCols`); when the
relation has join-table extras, filtered extras are pushed with alias
`joinPath(encPath, aliasCol)`. -/
def buildSelectItems (columns idCols : List String) (selectFilter : String → Bool)
    (encPath rootTable sep : String) (hasExtras : Bool) (extras : List Extra)
    (encJoinTablePath : String) : List SelectItem × List String :=
  let base := columns.foldl (fun (acc : List SelectItem × List String) col =>
    let filterPassed := selectFilter col
    let isIdColumn := idCols.contains col
    if filterPassed || isIdColumn then
      (acc.1 ++ [⟨(if encPath = "" then rootTable else encPath) ++ "." ++ col,
                  joinPath sep encPath col⟩],
       if !filterPassed then acc.2 ++ [col] else acc.2)
    else acc) ([], [])
  if hasExtras then
    (base.1 ++ extras.foldl (fun acc e =>
      if selectFilter e.joinTableCol then
        acc ++ [⟨encJoinTablePath ++ "." ++ e.joinTableCol, joinPath sep encPath e.aliasCol⟩]
      else acc) [],
     base.2)
  else base

/-- Embedding of the tail of `RelationJoinBuilder.buildSelects`: any alias
longer than `idLengthLimit` raises a `ValidationError` before
`builder.select` is reached; otherwise the not-already-selected columns are
handed to the builder as `col as alias` strings. String length matches the
JavaScript `.length` on these identifier strings. -/
def buildSelects (columns idCols : List String) (selectFilter : String → Bool)
    (encPath rootTable sep : String) (hasExtras : Bool) (extras : List Extra)
    (encJoinTablePath : String) (hasSelectionStrict : String → Bool) :
    Except String (List String) :=
  match ((buildSelectItems columns idCols selectFilter encPath rootTable sep
      hasExtras extras encJoinTablePath).1).filter
      (fun s => idLengthLimit < s.aliasName.length) with
  | [] => Except.ok ((((buildSelectItems columns idCols selectFilter encPath rootTable sep
      hasExtras extras encJoinTablePath).1).filter (fun s => !hasSelectionStrict s.col)).map
      (fun s => s.col ++ " as " ++ s.aliasName))
  | t :: _ => Except.error ("identifier " ++ t.aliasName ++ " is over "
      ++ toString idLengthLimit ++ " characters long and would be truncated by the database engine.")

/-- C4: `buildSelects` succeeds (reaching `builder.select`) exactly when
every computed alias is at most 63 characters, and raises the
`ValidationError` exactly when some computed alias exceeds 63 characters —
in which case no select list is produced, so the error precedes any SQL. -/
theorem buildSelects_idLengthLimit (columns idCols : List String)
    (selectFilter : String → Bool) (encPath rootTable sep : String) (hasExtras : Bool)
    (extras : List Extra) (encJoinTablePath : String) (hasSelectionStrict : String → Bool) :
    ((∃ out, buildSelects columns idCols selectFilter encPath rootTable sep hasExtras
        extras encJoinTablePath hasSelectionStrict = Except.ok out) ↔
      ∀ s ∈ (buildSelectItems columns idCols selectFilter encPath rootTable sep hasExtras
        extras encJoinTablePath).1, s.aliasName.length ≤ idLengthLimit) ∧
    ((∃ msg, buildSelects columns idCols selectFilter encPath rootTable sep hasExtras
        extras encJoinTablePath hasSelectionStrict = Except.error msg) ↔
      ∃ s ∈ (buildSelectItems columns idCols selectFilter encPath rootTable sep hasExtras
        extras encJoinTablePath).1, idLengthLimit < s.aliasName.length) := by
  unfold buildSelects
  cases htl : (buildSelectItems columns idCols selectFilter encPath rootTable sep hasExtras
      extras encJoinTablePath).1.filter (fun s => idLengthLimit < s.aliasName.length) with
  | nil =>
    constructor
    · constructor
      · intro _ s hs
        have h := List.filter_eq_nil_iff.mp htl s hs
        have hle : ¬ idLengthLimit < s.aliasName.length := by simpa using h
        omega
      · intro _
        exact ⟨_, rfl⟩
    · constructor
      · rintro ⟨msg, hmsg⟩
        exact Except.noConfusion hmsg
      · rintro ⟨s, hs, hlong⟩
        have := List.filter_eq_nil_iff.mp htl s hs
        exact absurd (by simpa using hlong) this
  | cons t ts =>
    have htmem : t ∈ (buildSelectItems columns idCols selectFilter encPath rootTable sep
        hasExtras extras encJoinTablePath).1.filter
          (fun s => idLengthLimit < s.aliasName.length) := by
      rw [htl]
      exact List.mem_cons_self t ts
    have ht2 := List.mem_filter.mp htmem
    constructor
    · constructor
      · rintro ⟨out, hout⟩
        exact Except.noConfusion hout
      · intro hall
        have := hall t ht2.1
        have hlong : idLengthLimit < t.aliasName.length := by simpa using ht2.2
        omega
    · constructor
      · intro _
        exact ⟨t, ht2.1, by simpa using ht2.2⟩
      · intro _
        exact ⟨_, rfl⟩

/-- C4 witness: a 66-character path makes the alias of column `id` 69
characters long (over the limit), producing the error; with the root path
the alias `id` is 2 characters and the select list is produced. -/
theorem buildSelects_idLengthLimit_witness :
    ((∃ out, buildSelects ["id"] ["id"] (fun _ => true)
        "aaaaaaaaaaaaaaaaaaaaaaaaaaaaaaaaaaaaaaaaaaaaaaaaaaaaaaaaaaaaaaaaaa" "t" ":"
        false [] "" (fun _ => false) = Except.ok out) ↔
      ∀ s ∈ (buildSelectItems ["id"] ["id"] (fun _ => true)
        "aaaaaaaaaaaaaaaaaaaaaaaaaaaaaaaaaaaaaaaaaaaaaaaaaaaaaaaaaaaaaaaaaa" "t" ":"
        false [] "").1, s.aliasName.length ≤ idLengthLimit) ∧
    ((∃ msg, buildSelects ["id"] ["id"] (fun _ => true)
        "aaaaaaaaaaaaaaaaaaaaaaaaaaaaaaaaaaaaaaaaaaaaaaaaaaaaaaaaaaaaaaaaaa" "t" ":"
        false [] "" (fun _ => false) = Except.error msg) ↔
      ∃ s ∈ (buildSelectItems ["id"] ["id"] (fun _ => true)
        "aaaaaaaaaaaaaaaaaaaaaaaaaaaaaaaaaaaaaaaaaaaaaaaaaaaaaaaaaaaaaaaaaa" "t" ":"
        false [] "").1, idLengthLimit < s.aliasName.length) :=
  buildSelects_idLengthLimit ["id"] ["id"] (fun _ => true)
    "aaaaaaaaaaaaaaaaaaaaaaaaaaaaaaaaaaaaaaaaaaaaaaaaaaaaaaaaaaaaaaaaaa" "t" ":"
    false [] "" (fun _ => false)

/-- Decimal digit rendering of a natural number (the characters of the
JavaScript template rendering `${n}`), with structural fuel so the kernel
can evaluate it. -/
def decDigitsAux : Nat → Nat → List Char
  | 0, _ => []
  | fuel + 1, n =>
    if n < 10 then [Nat.digitChar n]
    else decDigitsAux fuel (n / 10) ++ [Nat.digitChar (n % 10)]

/-- Decimal digit list of a natural number. -/
def decDigits (n : Nat) : List Char := decDigitsAux (n + 1) n

/-- Valuation inverting `decDigits`. -/
def decVal (l : List Char) : Nat :=
  l.foldl (fun acc c => acc * 10 + (c.toNat - 48)) 0

theorem decVal_append_digit (l : List Char) (c : Char) :
    decVal (l ++ [c]) = 10 * decVal l + (c.toNat - 48) := by
  unfold decVal
  rw [List.foldl_append]
  simp [Nat.mul_comm]

theorem digitChar_toNat (d : Nat) (h : d < 10) : (Nat.digitChar d).toNat - 48 = d := by
  interval_cases d <;> decide

theorem decVal_decDigitsAux : ∀ fuel n, n < fuel → decVal (decDigitsAux fuel n) = n := by
  intro fuel
  induction fuel with
  | zero =>
    intro n h
    omega
  | succ f ih =>
    intro n h
    show decVal (if n < 10 then [Nat.digitChar n]
      else decDigitsAux f (n / 10) ++ [Nat.digitChar (n % 10)]) = n
    by_cases h10 : n < 10
    · rw [if_pos h10]
      show decVal ([] ++ [Nat.digitChar n]) = n
      rw [decVal_append_digit, digitChar_toNat n h10]
      simp [decVal]
    · rw [if_neg h10, decVal_append_digit,
        ih (n / 10) (Nat.lt_of_lt_of_le (Nat.div_lt_self (by omega) (by omega)) (by omega)),
        digitChar_toNat (n % 10) (Nat.mod_lt n (by omega))]
      omega

theorem decVal_decDigits (n : Nat) : decVal (decDigits n) = n :=
  decVal_decDigitsAux (n + 1) n (by omega)

theorem decDigits_injective (a b : Nat) (h : decDigits a = decDigits b) : a = b := by
  rw [← decVal_decDigits a, ← decVal_decDigits b, h]

/-- The generated minimized alias of `nextEncodedPath`, the string
`_t<decimal k>`. -/
def encTok (k : Nat) : String := String.mk ('_' :: 't' :: decDigits k)

theorem encTok_injective (a b : Nat) (h : encTok a = encTok b) : a = b := by
  have hl : ('_' :: 't' :: decDigits a) = ('_' :: 't' :: decDigits b) :=
    congrArg String.data h
  simp only [List.cons.injEq] at hl
  exact decDigits_injective a b hl.2.2

theorem encTok_ne_empty (k : Nat) : encTok k ≠ "" := by
  intro h
  have h2 : ('_' :: 't' :: decDigits k) = ([] : List Char) := congrArg String.data h
  exact List.noConfusion h2

/-- Sanity: the minimized alias renders as in the source. -/
theorem encTok_renders : encTok 12 = "_t12" := by decide

/-- Structural split of a character list at a separator character, the
embedding of the JavaScript `path.split(sep)` (the separator option is a
single character, `':'` by default). -/
def splitChar (c : Char) : List Char → List (List Char)
  | [] => [[]]
  | x :: t =>
    match splitChar c t with
    | [] => if x = c then [[], []] else [[x]]
    | h :: r => if x = c then [] :: h :: r else (x :: h) :: r

/-- Options of `RelationJoinBuilder` relevant to alias encoding:
`minimize`, `separator` (a single character, `':'` by default) and the
per-segment `aliases` override table. -/
structure EncOpt where
  minimize : Bool
  sep : Char
  aliases : List (String × String)

/-- The alias-encoding state: the `encodings`/`decodings` maps and the
counter `encIdx`. -/
structure EncState where
  encodings : List (String × String)
  decodings : List (String × String)
  encIdx : Nat

/-- The cache-miss encoding of the default (non-minimized) mode: the root
stays empty, any other path has each segment replaced by its (truthy)
alias override, rejoined with the separator. -/
def pureEnc (opt : EncOpt) (path : String) : String :=
  if path = "" then path
  else String.intercalate (String.mk [opt.sep])
    ((splitChar opt.sep path.data).map (fun part =>
      match getProp opt.aliases (String.mk part) with
      | some a => if a = "" then String.mk part else a
      | none => String.mk part))

/-- Embedding of `RelationJoinBuilder.encode`: a cached path returns its
stored encoding; otherwise the encoding is computed (substitution in the
default mode, a fresh `_t<N>` token in minimize mode, the root always
encoding to itself), and both the `encodings` and `decodings` maps are
updated. -/
def encodeStep (opt : EncOpt) (st : EncState) (path : String) : String × EncState :=
  match getProp st.encodings path with
  | some e => (e, st)
  | none =>
    if opt.minimize then
      if path = "" then
        ("", { st with
                 encodings := setProp st.encodings path ""
                 decodings := setProp st.decodings "" path })
      else
        (encTok (st.encIdx + 1),
         { encodings := setProp st.encodings path (encTok (st.encIdx + 1))
           decodings := setProp st.decodings (encTok (st.encIdx + 1)) path
           encIdx := st.encIdx + 1 })
    else
      (pureEnc opt path,
       { st with
           encodings := setProp st.encodings path (pureEnc opt path)
           decodings := setProp st.decodings (pureEnc opt path) path })

/-- Embedding of `RelationJoinBuilder.decode` (`undefined` as `none`). -/
def decode (st : EncState) (path : String) : Option String :=
  getProp st.decodings path

/-- The encoder state after a build that visited the given paths in
order. -/
def runEncode (opt : EncOpt) (paths : List String) : EncState :=
  paths.foldl (fun st p => (encodeStep opt st p).2) ⟨[], [], 0⟩

/-- C5 counterexample: with the per-segment override table `{a: 'b'}` and
the visited paths `a` then `b` (default mode), `decode(encode('a'))`
returns `'b'`, not `'a'`: the second encoding overwrites the `decodings`
entry of the first. -/
theorem encode_decode_counterexample :
    decode (runEncode ⟨false, ':', [("a", "b")]⟩ ["a", "b"])
        (encodeStep ⟨false, ':', [("a", "b")]⟩
          (runEncode ⟨false, ':', [("a", "b")]⟩ ["a", "b"]) "a").1 = some "b" ∧
    ("b" : String) ≠ "a" := by
  constructor
  · decide
  · decide

/-- Invariant of the encoder state after processing the given paths: the
`decodings` map inverts every cached encoding, every processed path is
cached, and the `decodings` keys are accounted for (fresh `_t` tokens up
to `encIdx` in minimize mode, substitution images in default mode). -/
def InvEnc (opt : EncOpt) (st : EncState) (processed : List String) : Prop :=
  (∀ p e, getProp st.encodings p = some e →
    p ∈ processed ∧ getProp st.decodings e = some p) ∧
  (∀ p ∈ processed, (getProp st.encodings p).isSome = true) ∧
  (opt.minimize = true → ∀ e q, getProp st.decodings e = some q →
    (e = "" ∧ q = "") ∨ ∃ k, 1 ≤ k ∧ k ≤ st.encIdx ∧ e = encTok k) ∧
  (opt.minimize = false → ∀ e q, getProp st.decodings e = some q → e = pureEnc opt q)

theorem encodeStep_inv (opt : EncOpt) (st : EncState) (p : String) (processed : List String)
    (hinv : InvEnc opt st processed)
    (hinj : opt.minimize = false → ∀ q ∈ processed, pureEnc opt q = pureEnc opt p → q = p) :
    InvEnc opt (encodeStep opt st p).2 (p :: processed) := by
  obtain ⟨h1, h2, h3, h4⟩ := hinv
  cases hc : getProp st.encodings p with
  | some e =>
    have hst : (encodeStep opt st p).2 = st := by
      simp [encodeStep, hc]
    rw [hst]
    refine ⟨?_, ?_, h3, h4⟩
    · intro q e2 hq
      obtain ⟨hmem, hdec⟩ := h1 q e2 hq
      exact ⟨List.mem_cons_of_mem _ hmem, hdec⟩
    · intro q hq
      rcases List.mem_cons.mp hq with he | hmem
      · subst he
        simp [hc]
      · exact h2 q hmem
  | none =>
    by_cases hmin : opt.minimize = true
    · by_cases hroot : p = ""
      · subst hroot
        have hEnc : (encodeStep opt st "").2.encodings = setProp st.encodings "" "" := by
          simp [encodeStep, hc, hmin]
        have hDec : (encodeStep opt st "").2.decodings = setProp st.decodings "" "" := by
          simp [encodeStep, hc, hmin]
        have hIdx : (encodeStep opt st "").2.encIdx = st.encIdx := by
          simp [encodeStep, hc, hmin]
        refine ⟨?_, ?_, ?_, ?_⟩
        · intro q e2 hq
          rw [hEnc] at hq
          rw [hDec]
          by_cases hqp : q = ""
          · subst hqp
            rw [getProp_setProp_eq] at hq
            obtain he2 : e2 = "" := by injection hq with h; exact h.symm
            subst he2
            exact ⟨List.mem_cons_self _ _, getProp_setProp_eq _ _ _⟩
          · rw [getProp_setProp_ne _ _ _ _ (fun h => hqp h.symm)] at hq
            obtain ⟨hmem, hdec⟩ := h1 q e2 hq
            refine ⟨List.mem_cons_of_mem _ hmem, ?_⟩
            by_cases he2 : e2 = ""
            · subst he2
              rcases h3 hmin "" q hdec with ⟨_, hq0⟩ | ⟨k, _, _, hk⟩
              · exact absurd hq0 hqp
              · exact absurd hk.symm (encTok_ne_empty k)
            · rw [getProp_setProp_ne _ _ _ _ (fun h => he2 h.symm)]
              exact hdec
        · intro q hq
          rw [hEnc]
          rcases List.mem_cons.mp hq with he | hmem
          · subst he
            rw [getProp_setProp_eq]
            rfl
          · have hold := h2 q hmem
            by_cases hqp : q = ""
            · subst hqp
              rw [getProp_setProp_eq]
              rfl
            · rw [getProp_setProp_ne _ _ _ _ (fun h => hqp h.symm)]
              exact hold
        · intro _ e q hq
          rw [hDec] at hq
          rw [hIdx]
          by_cases he : e = ""
          · subst he
            rw [getProp_setProp_eq] at hq
            obtain hq2 : q = "" := by injection hq with h; exact h.symm
            exact Or.inl ⟨rfl, hq2⟩
          · rw [getProp_setProp_ne _ _ _ _ (fun h => he h.symm)] at hq
            exact h3 hmin e q hq
        · intro hf
          rw [hf] at hmin
          exact Bool.noConfusion hmin
      · have hEnc : (encodeStep opt st p).2.encodings
            = setProp st.encodings p (encTok (st.encIdx + 1)) := by
          simp [encodeStep, hc, hmin, hroot]
        have hDec : (encodeStep opt st p).2.decodings
            = setProp st.decodings (encTok (st.encIdx + 1)) p := by
          simp [encodeStep, hc, hmin, hroot]
        have hIdx : (encodeStep opt st p).2.encIdx = st.encIdx + 1 := by
          simp [encodeStep, hc, hmin, hroot]
        refine ⟨?_, ?_, ?_, ?_⟩
        · intro q e2 hq
          rw [hEnc] at hq
          rw [hDec]
          by_cases hqp : q = p
          · subst hqp
            rw [getProp_setProp_eq] at hq
            obtain he2 : e2 = encTok (st.encIdx + 1) := by injection hq with h; exact h.symm
            subst he2
            exact ⟨List.mem_cons_self _ _, getProp_setProp_eq _ _ _⟩
          · rw [getProp_setProp_ne _ _ _ _ (fun h => hqp h.symm)] at hq
            obtain ⟨hmem, hdec⟩ := h1 q e2 hq
            refine ⟨List.mem_cons_of_mem _ hmem, ?_⟩
            by_cases he2 : e2 = encTok (st.encIdx + 1)
            · exfalso
              subst he2
              rcases h3 hmin _ q hdec with ⟨h0, _⟩ | ⟨k, hk1, hk2, hk⟩
              · exact encTok_ne_empty _ h0
              · have := encTok_injective _ _ hk.symm
                omega
            · rw [getProp_setProp_ne _ _ _ _ (fun h => he2 h.symm)]
              exact hdec
        · intro q hq
          rw [hEnc]
          rcases List.mem_cons.mp hq with he | hmem
          · subst he
            rw [getProp_setProp_eq]
            rfl
          · have hold := h2 q hmem
            by_cases hqp : q = p
            · subst hqp
              rw [getProp_setProp_eq]
              rfl
            · rw [getProp_setProp_ne _ _ _ _ (fun h => hqp h.symm)]
              exact hold
        · intro _ e q hq
          rw [hDec] at hq
          rw [hIdx]
          by_cases he : e = encTok (st.encIdx + 1)
          · subst he
            exact Or.inr ⟨st.encIdx + 1, by omega, by omega, rfl⟩
          · rw [getProp_setProp_ne _ _ _ _ (fun h => he h.symm)] at hq
            rcases h3 hmin e q hq with hleft | ⟨k, hk1, hk2, hk⟩
            · exact Or.inl hleft
            · exact Or.inr ⟨k, hk1, by omega, hk⟩
        · intro hf
          rw [hf] at hmin
          exact Bool.noConfusion hmin
    · have hminf : opt.minimize = false := by
        cases hm : opt.minimize
        · rfl
        · exact absurd hm hmin
      have hEnc : (encodeStep opt st p).2.encodings
          = setProp st.encodings p (pureEnc opt p) := by
        simp [encodeStep, hc, hminf]
      have hDec : (encodeStep opt st p).2.decodings
          = setProp st.decodings (pureEnc opt p) p := by
        simp [encodeStep, hc, hminf]
      refine ⟨?_, ?_, ?_, ?_⟩
      · intro q e2 hq
        rw [hEnc] at hq
        rw [hDec]
        by_cases hqp : q = p
        · subst hqp
          rw [getProp_setProp_eq] at hq
          obtain he2 : e2 = pureEnc opt q := by injection hq with h; exact h.symm
          subst he2
          exact ⟨List.mem_cons_self _ _, getProp_setProp_eq _ _ _⟩
        · rw [getProp_setProp_ne _ _ _ _ (fun h => hqp h.symm)] at hq
          obtain ⟨hmem, hdec⟩ := h1 q e2 hq
          refine ⟨List.mem_cons_of_mem _ hmem, ?_⟩
          by_cases he2 : e2 = pureEnc opt p
          · exfalso
            subst he2
            have := h4 hminf _ q hdec
            exact hqp (hinj hminf q hmem this.symm)
          · rw [getProp_setProp_ne _ _ _ _ (fun h => he2 h.symm)]
            exact hdec
      · intro q hq
        rw [hEnc]
        rcases List.mem_cons.mp hq with he | hmem
        · subst he
          rw [getProp_setProp_eq]
          rfl
        · have hold := h2 q hmem
          by_cases hqp : q = p
          · subst hqp
            rw [getProp_setProp_eq]
            rfl
          · rw [getProp_setProp_ne _ _ _ _ (fun h => hqp h.symm)]
            exact hold
      · intro ht
        rw [ht] at hminf
        exact Bool.noConfusion hminf
      · intro _ e q hq
        rw [hDec] at hq
        by_cases he : e = pureEnc opt p
        · subst he
          rw [getProp_setProp_eq] at hq
          obtain hq2 : q = p := by injection hq with h; exact h.symm
          rw [hq2]
        · rw [getProp_setProp_ne _ _ _ _ (fun h => he h.symm)] at hq
          exact h4 hminf e q hq
theorem encodeRun_inv (opt : EncOpt) (allPaths : List String)
    (hinj : opt.minimize = false → ∀ q ∈ allPaths, ∀ r ∈ allPaths,
      pureEnc opt q = pureEnc opt r → q = r) :
    ∀ (rest : List String), (∀ r ∈ rest, r ∈ allPaths) →
    ∀ st (processed : List String), (∀ q ∈ processed, q ∈ allPaths) →
    InvEnc opt st processed →
    InvEnc opt (rest.foldl (fun s p => (encodeStep opt s p).2) st)
      (rest.reverse ++ processed) := by
  intro rest
  induction rest with
  | nil =>
    intro _ st processed _ hinv
    simpa using hinv
  | cons r t ih =>
    intro hrest st processed hproc hinv
    rw [List.foldl_cons]
    have hstep := encodeStep_inv opt st r processed hinv
      (fun hf q hq hpe => hinj hf q (hproc q hq) r (hrest r (List.mem_cons_self r t)) hpe)
    have hres := ih (fun x hx => hrest x (List.mem_cons_of_mem _ hx))
      (encodeStep opt st r).2 (r :: processed)
      (fun q hq => by
        rcases List.mem_cons.mp hq with he | hm
        · rw [he]
          exact hrest r (List.mem_cons_self r t)
        · exact hproc q hm) hstep
    simpa [List.reverse_cons, List.append_assoc] using hres

/-- C5 amended: `decode(encode(p)) = p` for every path visited during the
build, in minimize mode unconditionally, and in the default mode provided
the per-segment substitution maps distinct visited paths to distinct
encoded paths (which holds in particular for the empty override table).
With a colliding override table the source overwrites the `decodings`
entry, see the counterexample. -/
theorem encode_decode_amended (opt : EncOpt) (paths : List String) (p : String)
    (hp : p ∈ paths)
    (hinj : opt.minimize = false → ∀ q ∈ paths, ∀ r ∈ paths,
      pureEnc opt q = pureEnc opt r → q = r) :
    decode (runEncode opt paths) (encodeStep opt (runEncode opt paths) p).1 = some p := by
  have hinit : InvEnc opt ⟨[], [], 0⟩ [] := by
    refine ⟨?_, ?_, ?_, ?_⟩
    · intro q e hq
      simp [getProp] at hq
    · intro q hq
      simp at hq
    · intro _ e q hq
      simp [getProp] at hq
    · intro _ e q hq
      simp [getProp] at hq
  have hinv : InvEnc opt (runEncode opt paths) (paths.reverse ++ []) :=
    encodeRun_inv opt paths hinj paths (fun r hr => hr) ⟨[], [], 0⟩ []
      (fun q hq => absurd hq (List.not_mem_nil q)) hinit
  obtain ⟨h1, h2, _, _⟩ := hinv
  have hpmem : p ∈ paths.reverse ++ [] := by simpa using hp
  have hsome := h2 p hpmem
  cases hc : getProp (runEncode opt paths).encodings p with
  | none =>
    rw [hc] at hsome
    simp at hsome
  | some e =>
    have henc : (encodeStep opt (runEncode opt paths) p).1 = e := by
      unfold encodeStep
      rw [hc]
    rw [henc]
    exact (h1 p e hc).2

/-- C5 witness for the amended statement: a minimize-mode build over two
paths decodes the encoding of `children` back to `children`. -/
theorem encode_decode_amended_witness :
    decode (runEncode ⟨true, ':', []⟩ ["children", "pets"])
        (encodeStep ⟨true, ':', []⟩
          (runEncode ⟨true, ':', []⟩ ["children", "pets"]) "children").1
      = some "children" :=
  encode_decode_amended ⟨true, ':', []⟩ ["children", "pets"] "children"
    (by decide) (by decide)

/-- Embedding of `createSingleIdGetter`: absent (`null`) when the single
identifier column is falsy, otherwise the `id:` prefixed coercion. -/
def createSingleIdGetter (idCols : List String) (row : JObj) : Option String :=
  let val := getProp row (idCols.headD "")
  if truthyO val = false then none
  else some ("id:" ++ jsToStringO val)

/-- Embedding of `createTwoIdGetter`. -/
def createTwoIdGetter (idCols : List String) (row : JObj) : Option String :=
  let val1 := getProp row (idCols.headD "")
  let val2 := getProp row ((idCols.drop 1).headD "")
  if truthyO val1 = false || truthyO val2 = false then none
  else some ("id:" ++ jsToStringO val1 ++ "," ++ jsToStringO val2)

/-- Embedding of `createThreeIdGetter`. -/
def createThreeIdGetter (idCols : List String) (row : JObj) : Option String :=
  let val1 := getProp row (idCols.headD "")
  let val2 := getProp row ((idCols.drop 1).headD "")
  let val3 := getProp row ((idCols.drop 2).headD "")
  if truthyO val1 = false || truthyO val2 = false || truthyO val3 = false then none
  else some ("id:" ++ jsToStringO val1 ++ "," ++ jsToStringO val2 ++ "," ++ jsToStringO val3)

/-- The loop of `createNIdGetter`: abort with `null` on the first falsy
identifier column, otherwise accumulate the comma-joined coercions. -/
def createNIdGetterAux (row : JObj) : List String → Nat → String → Option String
  | [], _, acc => some acc
  | c :: t, i, acc =>
    let val := getProp row c
    if truthyO val = false then none
    else createNIdGetterAux row t (i + 1)
      (acc ++ (if 0 < i then "," else "") ++ jsToStringO val)

/-- Embedding of `createNIdGetter`. -/
def createNIdGetter (idCols : List String) (row : JObj) : Option String :=
  createNIdGetterAux row idCols 0 "id:"

/-- Embedding of `RelationJoinBuilder.createIdGetter`'s arity dispatch. -/
def createIdGetter (idCols : List String) (row : JObj) : Option String :=
  match idCols with
  | [_] => createSingleIdGetter idCols row
  | [_, _] => createTwoIdGetter idCols row
  | [_, _, _] => createThreeIdGetter idCols row
  | _ => createNIdGetter idCols row

/-- Embedding of one `PathInfo` record: its path, encoded path, encoded
parent path, governing relation name (`none` at the root), the
one-to-one flag of the relation, the aliased identifier columns used by
its id getter, and its omit set. -/
structure PathInfoL where
  path : String
  encPath : String
  encParentPath : Option String
  relName : Option String
  oneToOne : Bool
  idCols : List String
  omitCols : List String
deriving Repr, DecidableEq

/-- One entry of `createKeyInfo`: the owning path's encoded path (the
grouping key of `keyInfoByPath`), the raw row key and the decoded column
name. -/
structure KInfo where
  encPath : String
  key : String
  col : String
deriving Repr, DecidableEq

/-- Index of the last occurrence of a character (the `lastIndexOf` of
`createKeyInfo`; the separator is a single character). -/
def lastIdxOfAux (c : Char) : List Char → Nat → Option Nat → Option Nat
  | [], _, best => best
  | x :: t, i, best => lastIdxOfAux c t (i + 1) (if x = c then some i else best)

/-- Index of the last occurrence of a character in a string. -/
def lastIdxOf (c : Char) (s : String) : Option Nat := lastIdxOfAux c s.data 0 none

/-- Embedding of `RelationJoinBuilder.createKeyInfo` over the keys of the
first row: a key without the separator belongs to the root path; any
other key is split at the last separator, the prefix decoded to a path and
the suffix taken as the column; columns in the path's omit set are
dropped. On a well-formed build every key resolves to a `PathInfo`;
unresolved keys are dropped rather than modelling the resulting
`TypeError`. -/
def createKeyInfo (sep : Char) (decodings : List (String × String))
    (pathInfos : List PathInfoL) (row0 : JObj) : List KInfo :=
  (objKeys row0).foldl (fun acc key =>
    match lastIdxOf sep key with
    | none =>
      match pathInfos.find? (fun pi2 => pi2.path = "") with
      | some pInfo =>
        if pInfo.omitCols.contains key then acc
        else acc ++ [⟨pInfo.encPath, key, key⟩]
      | none => acc
    | some sepIdx =>
      match getProp decodings (String.mk (key.data.take sepIdx)) with
      | some path =>
        match pathInfos.find? (fun pi2 => pi2.path = path) with
        | some pInfo =>
          if pInfo.omitCols.contains (String.mk (key.data.drop (sepIdx + 1))) then acc
          else acc ++ [⟨pInfo.encPath, key, String.mk (key.data.drop (sepIdx + 1))⟩]
        | none => acc
      | none => acc) []

/-- Embedding of `createModel`: the database json of a fresh model at a
path, one property per non-omitted key of that path present in the row
(`fromDatabaseJson` is the identity on this column-keyed json; SQL rows
carry every selected key, so a missing key does not occur). -/
def createModel (row : JObj) (pInfo : PathInfoL) (keyInfo : List KInfo) : JObj :=
  (keyInfo.filter (fun ki => ki.encPath = pInfo.encPath)).foldl (fun json ki =>
    match getProp row ki.key with
    | some v => setProp json ki.col v
    | none => json) []

/-- The branch object stored under a relation name on a parent model:
a keyed map for one-to-many paths, a single model reference for
one-to-one paths. -/
inductive BranchV where
  | many (entries : List (String × Nat))
  | one (addr : Nat)
deriving Repr, DecidableEq

/-- A model object in the heap: its column json and its relation
branches. JavaScript stores branches as ordinary properties of the same
object; they are kept apart here because relation names never collide
with selected column names in a valid schema. -/
structure MObj where
  json : JObj
  branches : List (String × BranchV)
deriving Repr, DecidableEq

/-- The mutable state of `rowsToTree`: the heap of model objects
(addresses embed JavaScript object references), the root `tree` map and
the per-path `stack` of current models, which persists across rows as in
the source. -/
structure TreeState where
  heap : List MObj
  tree : List (String × Nat)
  stack : List (String × Nat)
deriving Repr, DecidableEq

/-- Embedding of one path step of the row loop of `rowsToTree`: an absent
identifier skips the path (`continue`); the root uses the tree as its
branch; a relation path locates its branch on the parent model from the
stack (creating it when missing), locates or creates the model keyed by
the identifier, and pushes the model on the stack. A missing stack entry
makes the source dereference `undefined` (a `TypeError`), embedded as
`none`. -/
def processPath (keyInfo : List KInfo) (row : JObj) (st : TreeState)
    (pInfo : PathInfoL) : Option TreeState :=
  match createIdGetter pInfo.idCols row with
  | none => some st
  | some id =>
    match pInfo.relName with
    | none =>
      match getProp st.tree id with
      | some addr => some { st with stack := setProp st.stack pInfo.encPath addr }
      | none =>
        some { heap := st.heap ++ [⟨createModel row pInfo keyInfo, []⟩]
               tree := setProp st.tree id st.heap.length
               stack := setProp st.stack pInfo.encPath st.heap.length }
    | some relName =>
      match pInfo.encParentPath.bind (fun pp => getProp st.stack pp) with
      | none => none
      | some parentAddr =>
        match st.heap[parentAddr]? with
        | none => none
        | some parentObj =>
          if pInfo.oneToOne then
            match getProp parentObj.branches relName with
            | some (BranchV.one addr) =>
              some { st with stack := setProp st.stack pInfo.encPath addr }
            | some (BranchV.many _) => none
            | none =>
              let parent2 : MObj := { parentObj with
                branches := setProp parentObj.branches relName (BranchV.one st.heap.length) }
              some { heap := (st.heap.set parentAddr parent2) ++ [⟨createModel row pInfo keyInfo, []⟩]
                     tree := st.tree
                     stack := setProp st.stack pInfo.encPath st.heap.length }
          else
            match
              (match getProp parentObj.branches relName with
               | some (BranchV.many es) => some es
               | none => some []
               | some (BranchV.one _) => none) with
            | none => none
            | some es =>
              match getProp es id with
              | some addr => some { st with stack := setProp st.stack pInfo.encPath addr }
              | none =>
                let parent2 : MObj := { parentObj with
                  branches := setProp parentObj.branches relName
                    (BranchV.many (setProp es id st.heap.length)) }
                some { heap := (st.heap.set parentAddr parent2) ++ [⟨createModel row pInfo keyInfo, []⟩]
                       tree := st.tree
                       stack := setProp st.stack pInfo.encPath st.heap.length }

/-- One row of the row loop: the paths in traversal order. -/
def processRow (keyInfo : List KInfo) (pathInfos : List PathInfoL) (row : JObj)
    (st : TreeState) : Option TreeState :=
  pathInfos.foldlM (fun s p => processPath keyInfo row s p) st

/-- The `PathInfo` tree of a compiled eager expression (children in
relation-array order). -/
inductive PTree where
  | node (info : PathInfoL) (children : List PTree)

mutual

/-- Pre-order flattening of the `PathInfo` tree: the insertion order of
`this.pathInfo` during `doBuild` (parent first, then children in order),
which is the traversal order of `rowsToTree`. -/
def preorder : PTree → List PathInfoL
  | PTree.node info children => info :: preorderList children

/-- Pre-order flattening of a forest. -/
def preorderList : List PTree → List PathInfoL
  | [] => []
  | t :: ts => preorder t ++ preorderList ts

end

mutual

/-- A finalized model: column json plus, per relation of the expression,
a finalized branch. -/
inductive FModel where
  | mk (json : JObj) (rels : List (String × FRel))

/-- A finalized branch: an ordered list for one-to-many paths
(`_.values` of the keyed map), the single model or `null` for one-to-one
paths (`branch || null`). -/
inductive FRel where
  | many (ms : List FModel)
  | one (m : Option FModel)

end

/-- Embedding of the top-down `finalize` pass, reading a heap model into
its finalized form; the fuel bounds the recursion depth (any value above
the path-tree depth is enough and the callers supply one). -/
def finalizeAddr (fuel : Nat) (heap : List MObj) (t : PTree) (addr : Nat) : FModel :=
  match fuel with
  | 0 => FModel.mk [] []
  | fuel + 1 =>
    match t with
    | PTree.node _ children =>
      FModel.mk (((heap[addr]?).map MObj.json).getD [])
        (children.map (fun c =>
          match c with
          | PTree.node cinfo _ =>
            match getProp (((heap[addr]?).map MObj.branches).getD []) (cinfo.relName.getD "") with
            | some (BranchV.many es) =>
              (cinfo.relName.getD "",
               FRel.many (es.map (fun e => finalizeAddr fuel heap c e.2)))
            | some (BranchV.one a) =>
              if cinfo.oneToOne then
                (cinfo.relName.getD "", FRel.one (some (finalizeAddr fuel heap c a)))
              else (cinfo.relName.getD "", FRel.many [])
            | none =>
              if cinfo.oneToOne then (cinfo.relName.getD "", FRel.one none)
              else (cinfo.relName.getD "", FRel.many [])))

/-- Embedding of `RelationJoinBuilder.rowsToTree`: an empty row-set is
returned as-is; otherwise the key info is computed from the first row,
every row is processed path-by-path, and the root tree values are
finalized top-down. -/
def rowsToTree (sep : Char) (decodings : List (String × String)) (pt : PTree)
    (rows : List JObj) : Option (List FModel) :=
  match rows with
  | [] => some []
  | row0 :: _ =>
    match rows.foldlM
        (fun st row => processRow (createKeyInfo sep decodings (preorder pt) row0)
          (preorder pt) row st) (⟨[], [], []⟩ : TreeState) with
    | none => none
    | some st =>
      some (st.tree.map (fun e =>
        finalizeAddr ((preorder pt).length + 1) st.heap pt e.2))

theorem processRow_filter_absent (keyInfo : List KInfo) (row : JObj) :
    ∀ (pathInfos : List PathInfoL) (st : TreeState),
      processRow keyInfo pathInfos row st
        = processRow keyInfo
            (pathInfos.filter (fun p => (createIdGetter p.idCols row).isSome)) row st := by
  intro pathInfos
  induction pathInfos with
  | nil => intro st; rfl
  | cons p t ih =>
    intro st
    rw [List.filter_cons]
    cases hid : createIdGetter p.idCols row with
    | none =>
      have hskip : processPath keyInfo row st p = some st := by
        unfold processPath
        rw [hid]
      simp only [processRow, List.foldlM_cons, hskip, hid, Option.isSome_none,
        Bool.false_eq_true, if_false]
      exact ih st
    | some id =>
      simp only [hid, Option.isSome_some, if_true]
      simp only [processRow, List.foldlM_cons]
      cases hstep : processPath keyInfo row st p with
      | none => rfl
      | some st2 => exact ih st2

theorem createNIdGetterAux_absent (row : JObj) :
    ∀ (cols : List String) (i : Nat) (acc : String) (c : String), c ∈ cols →
      truthyO (getProp row c) = false → createNIdGetterAux row cols i acc = none := by
  intro cols
  induction cols with
  | nil =>
    intro i acc c hc
    simp at hc
  | cons x t ih =>
    intro i acc c hc hfalsy
    rcases List.mem_cons.mp hc with he | hmem
    · subst he
      simp [createNIdGetterAux, hfalsy]
    · by_cases hx : truthyO (getProp row x) = false
      · simp [createNIdGetterAux, hx]
      · simp only [createNIdGetterAux, hx, if_false]
        exact ih (i + 1) _ c hmem hfalsy

/-- C10: every id getter reports the identifier absent whenever any of its
identifier columns holds a falsy value — not only null or a missing
column, but also `0`, the empty string, `false` or `NaN` — and a row
whose identifier column at a path is `0` or `''` contributes no object to
the reconstructed tree at that path. -/
theorem idGetter_falsy_absent :
    (∀ (idCols : List String) (row : JObj),
      (∃ c ∈ idCols, truthyO (getProp row c) = false) →
      createIdGetter idCols row = none) ∧
    (∀ v : JsVal, truthy v = false → ∀ row : JObj, ∀ c : String,
      getProp row c = some v → createIdGetter [c] row = none) ∧
    rowsToTree ':' [("", ""), ("children", "children")]
      (PTree.node ⟨"", "", none, none, false, ["id"], []⟩
        [PTree.node ⟨"children", "children", some "", some "children", false,
          ["children:id"], []⟩ []])
      [[("id", JsVal.num 1), ("children:id", JsVal.num 0)],
       [("id", JsVal.num 1), ("children:id", JsVal.str "")]]
    = some [FModel.mk [("id", JsVal.num 1)] [("children", FRel.many [])]] := by
  have habs : ∀ (idCols : List String) (row : JObj),
      (∃ c ∈ idCols, truthyO (getProp row c) = false) →
      createIdGetter idCols row = none := by
    intro idCols row ⟨c, hc, hfalsy⟩
    match idCols, hc with
    | [c1], hc =>
      have he : c = c1 := by simpa using hc
      subst he
      simp [createIdGetter, createSingleIdGetter, hfalsy]
    | [c1, c2], hc =>
      rcases (by simpa using hc : c = c1 ∨ c = c2) with he | he
      · subst he
        simp [createIdGetter, createTwoIdGetter, hfalsy]
      · subst he
        simp [createIdGetter, createTwoIdGetter, hfalsy]
    | [c1, c2, c3], hc =>
      rcases (by simpa using hc : c = c1 ∨ c = c2 ∨ c = c3) with he | he | he
      · subst he
        simp [createIdGetter, createThreeIdGetter, hfalsy]
      · subst he
        simp [createIdGetter, createThreeIdGetter, hfalsy]
      · subst he
        simp [createIdGetter, createThreeIdGetter, hfalsy]
    | [], hc => simp at hc
    | c1 :: c2 :: c3 :: c4 :: rest, hc =>
      show createNIdGetter (c1 :: c2 :: c3 :: c4 :: rest) row = none
      exact createNIdGetterAux_absent row _ 0 "id:" c hc hfalsy
  refine ⟨habs, ?_, rfl⟩
  intro v hv row c hc
  exact habs [c] row ⟨c, by simp, by simp [truthyO, hc, hv]⟩

/-- C10 witness: a single-column getter on rows carrying `0` and `''`
identifiers reports absent. -/
theorem idGetter_falsy_absent_witness :
    createIdGetter ["id"] [("id", JsVal.num 0)] = none ∧
    createIdGetter ["id"] [("id", JsVal.str "")] = none :=
  ⟨idGetter_falsy_absent.1 ["id"] [("id", JsVal.num 0)] ⟨"id", by decide, by decide⟩,
   idGetter_falsy_absent.1 ["id"] [("id", JsVal.str "")] ⟨"id", by decide, by decide⟩⟩

/-- C7: a path whose id getter reports the identifier absent for a row is
skipped for that row — processing a row equals processing it with all
absent-id paths removed, so such paths (and, in an outer-join row-set
where descendants of an absent path are absent too, all their
descendants) contribute nothing; a chain whose joined identifier columns
are `null` reconstructs nothing below the root; and a one-to-one
relation whose rows all had a null identifier is attached as `null`, not
as an empty object. -/
theorem rowsToTree_absent_path_spec :
    (∀ (keyInfo : List KInfo) (row : JObj) (pathInfos : List PathInfoL) (st : TreeState),
      processRow keyInfo pathInfos row st
        = processRow keyInfo
            (pathInfos.filter (fun p => (createIdGetter p.idCols row).isSome)) row st) ∧
    rowsToTree ':' [("", ""), ("a", "a"), ("a:b", "a:b")]
      (PTree.node ⟨"", "", none, none, false, ["id"], []⟩
        [PTree.node ⟨"a", "a", some "", some "a", false, ["a:id"], []⟩
          [PTree.node ⟨"a:b", "a:b", some "a", some "b", false, ["a:b:id"], []⟩ []]])
      [[("id", JsVal.num 1), ("a:id", JsVal.null), ("a:b:id", JsVal.null)]]
    = some [FModel.mk [("id", JsVal.num 1)] [("a", FRel.many [])]] ∧
    (∀ p1 p2 : JsVal,
      rowsToTree ':' [("", ""), ("pet", "pet")]
        (PTree.node ⟨"", "", none, none, false, ["id"], []⟩
          [PTree.node ⟨"pet", "pet", some "", some "pet", true, ["pet:id"], []⟩ []])
        [[("id", JsVal.num 1), ("pet:id", JsVal.null), ("pet:name", p1)],
         [("id", JsVal.num 1), ("pet:id", JsVal.null), ("pet:name", p2)]]
      = some [FModel.mk [("id", JsVal.num 1)] [("pet", FRel.one none)]]) :=
  ⟨fun keyInfo row pathInfos st => processRow_filter_absent keyInfo row pathInfos st,
   rfl, fun _ _ => rfl⟩

/-- C6: when the branch already holds a model under the extracted
identifier, processing the path only repoints the per-path stack — the
heap, tree and every model's columns are untouched, so later rows'
columns for the same object are ignored; and the 3-row scenario with a
duplicated child identifier reconstructs exactly one child object, built
from the first such row. -/
theorem rowsToTree_dedup_by_id :
    (∀ (keyInfo : List KInfo) (row : JObj) (st : TreeState) (pInfo : PathInfoL)
      (id relName : String) (parentAddr : Nat) (parentObj : MObj)
      (es : List (String × Nat)) (addr : Nat),
      createIdGetter pInfo.idCols row = some id →
      pInfo.relName = some relName →
      pInfo.encParentPath.bind (fun pp => getProp st.stack pp) = some parentAddr →
      st.heap[parentAddr]? = some parentObj →
      pInfo.oneToOne = false →
      getProp parentObj.branches relName = some (BranchV.many es) →
      getProp es id = some addr →
      processPath keyInfo row st pInfo
        = some { st with stack := setProp st.stack pInfo.encPath addr }) ∧
    (∀ n1 n2 n3 : JsVal,
      rowsToTree ':' [("", ""), ("children", "children")]
        (PTree.node ⟨"", "", none, none, false, ["id"], []⟩
          [PTree.node ⟨"children", "children", some "", some "children", false,
            ["children:id"], []⟩ []])
        [[("id", JsVal.num 1), ("children:id", JsVal.num 2), ("children:name", n1)],
         [("id", JsVal.num 1), ("children:id", JsVal.num 2), ("children:name", n2)],
         [("id", JsVal.num 1), ("children:id", JsVal.num 3), ("children:name", n3)]]
      = some [FModel.mk [("id", JsVal.num 1)]
          [("children", FRel.many
            [FModel.mk [("id", JsVal.num 2), ("name", n1)] [],
             FModel.mk [("id", JsVal.num 3), ("name", n3)] []])]]) := by
  constructor
  · intro keyInfo row st pInfo id relName parentAddr parentObj es addr
      hid hrel hpar hobj honeone hbranch hfound
    unfold processPath
    simp only [hid, hrel, hpar, hobj, honeone, Bool.false_eq_true, if_false,
      hbranch, hfound]
  · intro n1 n2 n3
    rfl

/-- C6 witness: a concrete state whose `children` branch already holds the
model for `id:2`; reprocessing the path leaves heap and tree unchanged. -/
theorem rowsToTree_dedup_by_id_witness :
    processPath [] [("id", JsVal.num 1), ("children:id", JsVal.num 2)]
        ⟨[⟨[("id", JsVal.num 1)], [("children", BranchV.many [("id:2", 1)])]⟩,
          ⟨[("id", JsVal.num 2)], []⟩], [("id:1", 0)], [("", 0)]⟩
        ⟨"children", "children", some "", some "children", false, ["children:id"], []⟩
      = some ⟨[⟨[("id", JsVal.num 1)], [("children", BranchV.many [("id:2", 1)])]⟩,
          ⟨[("id", JsVal.num 2)], []⟩], [("id:1", 0)],
          setProp [("", 0)] "children" 1⟩ :=
  rowsToTree_dedup_by_id.1 [] [("id", JsVal.num 1), ("children:id", JsVal.num 2)]
    ⟨[⟨[("id", JsVal.num 1)], [("children", BranchV.many [("id:2", 1)])]⟩,
      ⟨[("id", JsVal.num 2)], []⟩], [("id:1", 0)], [("", 0)]⟩
    ⟨"children", "children", some "", some "children", false, ["children:id"], []⟩
    "id:2" "children" 0
    ⟨[("id", JsVal.num 1)], [("children", BranchV.many [("id:2", 1)])]⟩
    [("id:2", 1)] 1
    (by decide) rfl (by decide) (by decide) rfl (by decide) (by decide)

end Objection
